import Mathlib

/-!
Verification of the ingestion-and-retrieval engine of a RAG chatbot.

The development shallowly embeds the JavaScript backend:
* text is modelled as `List Char` (JS strings are sequences of UTF-16 units;
  all inputs of interest here are plain characters);
* JS numbers are modelled as exact rationals `ℚ`; the decimal literals of the
  source (`0.6`, `0.25`, `0.15`, `0.1`, `0.05`) are represented exactly;
* `Math.sqrt` (used only inside `cosineSimilarity`) is an abstract parameter
  `sqrt : ℚ → ℚ`, since square roots of rationals are in general irrational;
  the specification guarantees unit-norm embeddings, for which only the value
  `sqrt 1` matters;
* the embedding model is opaque per the specification and is a parameter
  `embed : Str → List ℚ`;
* the LLM backend is opaque and is a parameter of the chat-router functions;
* `Array.prototype.sort` with comparator `(a, b) => b.score - a.score` is
  stable (ECMAScript 2019), i.e. it produces the unique permutation that is
  sorted by descending score and preserves original order among equal scores;
  it is modelled by sorting index-paired elements lexicographically.
-/

/-- JS strings, modelled as lists of characters. -/
abbrev Str := List Char

/-- ASCII word character for the JS regex class `\w` = `[A-Za-z0-9_]`. -/
def isWordCharJS (c : Char) : Bool :=
  (('a' ≤ c) && (c ≤ 'z')) || (('A' ≤ c) && (c ≤ 'Z')) ||
  (('0' ≤ c) && (c ≤ '9')) || (c = '_')

/-- Whitespace for the JS regex class `\s` (ASCII part; the non-ASCII members
of the class do not matter for any claim). -/
def isSpaceJS (c : Char) : Bool :=
  c = ' ' || c = '\t' || c = '\n' || c = '\r' || c = '\x0b' || c = '\x0c'

/-- `text.toLowerCase()` (ASCII case mapping; non-ASCII letters are not word
characters for the tokenizer, so the difference with full Unicode lowercasing
is invisible to keyword extraction). -/
def toLowerStr (s : Str) : Str := s.map Char.toLower

/-- `text.replace(/[^\w\s]/g, ' ')`. -/
def replaceNonWord (s : Str) : Str :=
  s.map (fun c => if isWordCharJS c || isSpaceJS c then c else ' ')

/-- `text.split(/\s+/)` with empty pieces dropped.  (JS keeps a leading/trailing
empty string when the text starts/ends with whitespace; every caller filters
tokens by `length > 2`, so dropping empties is observationally identical.) -/
def splitWsGo : Str → Str → List Str
  | [], cur => if cur = [] then [] else [cur.reverse]
  | c :: rest, cur =>
    if isSpaceJS c then
      if cur = [] then splitWsGo rest [] else cur.reverse :: splitWsGo rest []
    else splitWsGo rest (c :: cur)

/-- Tokenization on whitespace runs. -/
def splitWs (s : Str) : List Str := splitWsGo s []

/-- `str.split(' ')`: split on every single space character, keeping empties. -/
def splitOnSpaceGo : Str → Str → List Str
  | [], cur => [cur.reverse]
  | c :: rest, cur =>
    if c = ' ' then cur.reverse :: splitOnSpaceGo rest []
    else splitOnSpaceGo rest (c :: cur)

/-- `str.split(' ')`. -/
def splitOnSpace (s : Str) : List Str := splitOnSpaceGo s []

/-- `arr.join(' ')`. -/
def joinSpace (l : List Str) : Str := List.intercalate [' '] l

/-- `str.trim()`: remove whitespace from both ends. -/
def jsTrim (s : Str) : Str :=
  ((s.dropWhile isSpaceJS).reverse.dropWhile isSpaceJS).reverse

/-- Keys used for sorting: a 4-component lexicographic rational key.
Descending components are encoded by negation. -/
abbrev Key4 := ℚ × ℚ × ℚ × ℚ

/-- One lexicographic level: compare the first components, fall through to
`inner` on ties. -/
def lexStep (inner : α → α → Prop) (p q : ℚ × α) : Prop :=
  p.1 < q.1 ∨ (p.1 = q.1 ∧ inner p.2 q.2)

instance decLexStep (inner : α → α → Prop) [DecidableRel inner] :
    DecidableRel (lexStep inner) := fun p q =>
  inferInstanceAs (Decidable (p.1 < q.1 ∨ (p.1 = q.1 ∧ inner p.2 q.2)))

/-- Lexicographic comparison of 4-component keys (non-strict). -/
def lex4LE : Key4 → Key4 → Prop :=
  lexStep (lexStep (lexStep (fun a b : ℚ => a ≤ b)))

instance decLex4 : DecidableRel lex4LE :=
  inferInstanceAs (DecidableRel (lexStep (lexStep (lexStep (fun a b : ℚ => a ≤ b)))))

/-- The relation used to sort by a 4-component key. -/
def keyedLE (f : α → Key4) (x y : α) : Prop := lex4LE (f x) (f y)

instance decKeyedLE (f : α → Key4) : DecidableRel (keyedLE f) := fun x y =>
  decLex4 (f x) (f y)

/-- Sort a list by a 4-component key (insertion sort: stable, deterministic). -/
def sortByKey (f : α → Key4) (l : List α) : List α :=
  List.insertionSort (keyedLE f) l

/-- The index-paired key modelling JS `Array.prototype.sort` with a
descending-score comparator (the sort is stable per ECMAScript 2019). -/
def stableKey (score : α → ℚ) (p : ℕ × α) : Key4 := (-(score p.2), (p.1 : ℚ), 0, 0)

/-- Stable sort by descending score: sort index-paired elements by
`(score descending, original index ascending)` and strip the indices. -/
def stableSortByScore (score : α → ℚ) (l : List α) : List α :=
  (sortByKey (stableKey score) l.enum).map (·.2)

/-- The stop-word set of `VectorStore.extractKeywords`. -/
def stopWords : List Str :=
  (["the", "a", "an", "and", "or", "but", "in", "on", "at", "to", "for",
    "of", "with", "by", "from", "is", "are", "was", "were", "be", "been",
    "being", "have", "has", "had", "do", "does", "did", "will", "would",
    "could", "should", "may", "might", "must", "shall", "can", "need",
    "it", "its", "this", "that", "these", "those", "i", "you", "he", "she",
    "we", "they", "what", "which", "who", "when", "where", "why", "how",
    "all", "each", "every", "both", "few", "more", "most", "other", "some",
    "such", "no", "nor", "not", "only", "own", "same", "so", "than", "too",
    "very", "just", "as", "if", "then", "because", "while", "although"
   ] : List String).map String.data

/-- The token list feeding keyword extraction: lowercase, replace characters
that are neither word characters nor whitespace by spaces, split on
whitespace, keep tokens of length `> 2` that are not stop words. -/
def keywordTokens (text : Str) : List Str :=
  (splitWs (replaceNonWord (toLowerStr text))).filter
    (fun word => 2 < word.length && !(stopWords.contains word))

/-- A value stored in the `wordFreq` object.  Counts are numbers, except that
the key `constructor` reads the truthy inherited
`Object.prototype.constructor` before its first write, after which string
concatenation takes over. -/
inductive JsVal where
  | num : ℕ → JsVal
  | str : Str → JsVal
deriving DecidableEq, Repr, Inhabited

/-- The token `__proto__`: all-lowercase, made of word characters, longer
than 2, not a stop word — and a key inherited from `Object.prototype`. -/
def protoStr : Str := "__proto__".data

/-- The token `constructor`, the only other `Object.prototype` key consisting
solely of lowercase word characters (property access is case-sensitive and
the tokenizer lowercases, so `hasOwnProperty`, `valueOf`, `toString`, ... can
never be reached by a token). -/
def ctorStr : Str := "constructor".data

/-- `String(Object.prototype.constructor)`: the string produced when the
inherited constructor function is added to the number `1`. -/
def ctorFunStr : Str := "function Object() \x7b [native code] \x7d".data

/-- `(v || 0) + 1` in JS on a defined stored value: a number increments (the
stored `0` never occurs, and `0 || 0` would re-yield `0` anyway); a nonempty
string is truthy and concatenates the rendering of `1` (an empty string is
falsy, so `|| 0` would make the result numeric again). -/
def jsBump : JsVal → JsVal
  | JsVal.num n => JsVal.num (n + 1)
  | JsVal.str s => if s = [] then JsVal.num 1 else JsVal.str (s ++ ['1'])

/-- One step of `wordFreq[word] = (wordFreq[word] || 0) + 1` on a plain JS
object, modelled as an insertion-ordered association list of own properties.
Two tokens collide with inherited `Object.prototype` members.  An assignment
to `__proto__` invokes the inherited accessor's setter, which ignores a
string value (also in strict mode: the setter exists, it just does nothing),
so no own property is ever created for that token.  A first read of
`constructor` yields the inherited constructor function, which is truthy, so
the first write stores the string `String(Object.prototype.constructor) + "1"`
and later writes concatenate further `"1"`s. -/
def bumpFreq (acc : List (Str × JsVal)) (w : Str) : List (Str × JsVal) :=
  if w = protoStr then acc
  else if acc.any (fun e => e.1 = w) then
    acc.map (fun e => if e.1 = w then (e.1, jsBump e.2) else e)
  else if w = ctorStr then acc ++ [(w, JsVal.str (ctorFunStr ++ ['1']))]
  else acc ++ [(w, JsVal.num 1)]

/-- The `wordFreq` object: own keys in insertion order with their values. -/
def freqFold (words : List Str) : List (Str × JsVal) := words.foldl bumpFreq []

/-- The purely numeric restriction of `bumpFreq`: the stepping of counts for
tokens colliding with no inherited key.  It is connected to the faithful step
by `bumpFreq_numEntries` and is used as the working model in proofs. -/
def bumpFreqN (acc : List (Str × ℕ)) (w : Str) : List (Str × ℕ) :=
  if acc.any (fun e => e.1 = w) then
    acc.map (fun e => if e.1 = w then (e.1, e.2 + 1) else e)
  else acc ++ [(w, 1)]

/-- The numeric model of the frequency fold, connected to `freqFold` by
`freqFold_bridge`. -/
def freqFoldN (words : List Str) : List (Str × ℕ) := words.foldl bumpFreqN []

/-- Numeric value of a digit string. -/
def strVal (s : Str) : ℕ := s.foldl (fun a c => 10 * a + (c.toNat - 48)) 0

/-- Whether a string is a canonical ECMAScript array index: own-property
enumeration (`Object.entries`) lists such keys first, in ascending numeric
order, before the remaining string keys in insertion order. -/
def isArrayIndexStr (s : Str) : Bool :=
  !(s = []) && s.all (fun c => ('0' ≤ c) && (c ≤ '9')) &&
  (s = ['0'] || !(s.head? = some '0')) && strVal s < 4294967295

/-- Position of the first occurrence of `x` (0 when absent); a self-contained
`indexOf` avoiding `BEq` instance mismatches. -/
def idxOf {α : Type} [DecidableEq α] (x : α) : List α → ℕ
  | [] => 0
  | a :: t => if a = x then 0 else idxOf x t + 1

/-- The order in which `Object.entries(wordFreq)` lists the entries:
array-index keys first, ascending by numeric value, then the other keys in
insertion order.  (Numeric values of distinct canonical indices are distinct;
the insertion rank in the second key component is only a formal tie-breaker.) -/
def jsEntriesOrder {α : Type} [DecidableEq α]
    (entries : List (Str × α)) : List (Str × α) :=
  sortByKey (fun e => ((strVal e.1 : ℚ), (idxOf e entries : ℚ), 0, 0))
    (entries.filter (fun e => isArrayIndexStr e.1)) ++
  entries.filter (fun e => !isArrayIndexStr e.1)

/-- The numeric view of a stored value, as consumed by the sort comparator
`(a, b) => b[1] - a[1]`.  When a stored value is a string, the real comparator
returns `NaN` on it and is therefore not a consistent comparison function, a
case in which ECMAScript leaves the sort order implementation-defined; every
statement about `extractKeywords` below accordingly assumes the one token
producing a string value (`constructor`) is absent, so the value chosen here
for the string case never matters. -/
def jsValQ : JsVal → ℚ
  | JsVal.num n => (n : ℚ)
  | JsVal.str _ => 0

/-- `VectorStore.extractKeywords`: tokens of the `wordFreq` object, sorted by
descending count with the stable sort of `Object.entries` order, first 20. -/
def extractKeywords (text : Str) : List Str :=
  let words := keywordTokens text
  let wordFreq := freqFold words
  ((stableSortByScore (fun e => jsValQ e.2) (jsEntriesOrder wordFreq)).take 20).map (·.1)

/-- The numeric-count pipeline of `extractKeywords` as a function of the token
list; `extractKeywords_bridge` shows it is the behaviour of the source on the
own-property tokens, away from the `constructor` collision. -/
def extractKeywordsN (words : List Str) : List Str :=
  ((stableSortByScore (fun e : Str × ℕ => (e.2 : ℚ))
    (jsEntriesOrder (freqFoldN words))).take 20).map (·.1)

/-- Distinct elements in order of first appearance. -/
def firstDedupGo (seen : List Str) : List Str → List Str
  | [] => []
  | w :: ws => if w ∈ seen then firstDedupGo seen ws else w :: firstDedupGo (w :: seen) ws

/-- Distinct elements in order of first appearance. -/
def firstDedup (l : List Str) : List Str := firstDedupGo [] l

/-- The keyword extractor as the specification words it: distinct tokens
sorted by descending frequency, ties broken by first appearance in the text,
truncated to 20. -/
def extractKeywordsSpec (text : Str) : List Str :=
  let words := keywordTokens text
  let uniq := firstDedup words
  (sortByKey (fun w => (-(words.count w : ℚ), (idxOf w uniq : ℚ), 0, 0)) uniq).take 20

/-- The sort key of the amended keyword ordering: count descending, then
canonical array indices (ascending by value) before other tokens in
first-appearance order. -/
def tokKey (words uniq : List Str) (w : Str) : Key4 :=
  (-(words.count w : ℚ),
   if isArrayIndexStr w then 0 else 1,
   if isArrayIndexStr w then (strVal w : ℚ) else 0,
   (idxOf w uniq : ℚ))

/-- The filtered tokens that become own properties of `wordFreq`: every token
except `__proto__`, whose write the inherited setter swallows. -/
def ownTokens (text : Str) : List Str :=
  (keywordTokens text).filter (fun w => !(w = protoStr))

/-- The keyword extractor as amended: the distinct own-property tokens
(`__proto__` never survives) sorted by descending frequency; ties are broken
by listing canonical-array-index tokens first in ascending numeric order,
then the remaining tokens by first appearance. -/
def extractKeywordsAmended (text : Str) : List Str :=
  let words := ownTokens text
  let uniq := firstDedup words
  (sortByKey (tokKey words uniq) uniq).take 20

/-- Decimal digits of `n`, most significant first, prepended to `acc`
(fuel-based so that the kernel can evaluate it; `fuel = n + 1` always
suffices).  Mirrors the rendering of `${chunkIndex}` in a JS template. -/
def natDigitsAux : ℕ → ℕ → Str → Str
  | 0, _, acc => acc
  | fuel + 1, n, acc =>
    let d := Char.ofNat (48 + n % 10)
    if n < 10 then d :: acc else natDigitsAux fuel (n / 10) (d :: acc)

/-- Decimal rendering of a natural number. -/
def natToStr (n : ℕ) : Str := natDigitsAux (n + 1) n []

/-- Configuration of `DocumentProcessor` (defaults 800 / 200). -/
structure DPConfig where
  chunkSize : ℕ
  chunkOverlap : ℕ
deriving DecidableEq, Repr, Inhabited

/-- The server constructs `new DocumentProcessor()` with the defaults. -/
def defaultDP : DPConfig := ⟨800, 200⟩

/-- Chunk metadata.  `source` models `metadata.filename || metadata.url` (the
server passes the same client-supplied name to the chunker metadata and the
registry); display-only fields (`type`, `title`) are omitted. -/
structure ChunkMeta where
  source : Str
  chunkIndex : ℕ
  charStart : ℕ
  charEnd : ℕ
deriving DecidableEq, Repr, Inhabited

/-- A chunk as produced by `DocumentProcessor.createChunks` (before embedding
and keyword extraction). -/
structure RawChunk where
  id : Str
  content : Str
  metadata : ChunkMeta
deriving DecidableEq, Repr, Inhabited

/-- `` `${name}-chunk-${chunkIndex}` ``. -/
def chunkId (source : Str) (chunkIndex : ℕ) : Str :=
  source ++ ("-chunk-".data ++ natToStr chunkIndex)

/-- `text.replace(/\r\n/g, '\n')`. -/
def normalizeCRLF : Str → Str
  | [] => []
  | '\r' :: '\n' :: rest => '\n' :: normalizeCRLF rest
  | c :: rest => c :: normalizeCRLF rest

/-- `replace(/\n{3,}/g, '\n\n')`: emit a pending run of `p` newlines,
collapsing runs of three or more to exactly two. -/
def emitNL (p : ℕ) : Str := if 3 ≤ p then ['\n', '\n'] else List.replicate p '\n'

/-- Collapse newline runs, tracking the length of the pending run. -/
def collapseNLGo : ℕ → Str → Str
  | pending, [] => emitNL pending
  | pending, '\n' :: rest => collapseNLGo (pending + 1) rest
  | pending, c :: rest => emitNL pending ++ c :: collapseNLGo 0 rest

/-- `split(/(?<=[.!?])\s+|\n{2,}/)`: cut after sentence-terminal punctuation
followed by whitespace, or at a run of two newlines.  `cur` holds the current
piece reversed.  Empty pieces may differ from the JS escaping of separator
runs, but they are trimmed away by the caller either way. -/
def splitSentGo : Str → Str → List Str
  | [], cur => [cur.reverse]
  | c :: rest, cur =>
    if isSpaceJS c && (cur.head? = some '.' || cur.head? = some '!' || cur.head? = some '?') then
      cur.reverse :: splitSentGo rest []
    else if c = '\n' && rest.head? = some '\n' then
      cur.reverse :: splitSentGo rest []
    else splitSentGo rest (c :: cur)

/-- `DocumentProcessor.splitIntoSentences`. -/
def splitIntoSentences (text : Str) : List Str :=
  ((splitSentGo (collapseNLGo 0 (normalizeCRLF text)) []).map jsTrim).filter
    (fun s => 0 < s.length)

/-- `Math.ceil(words.length * (chunkOverlap / chunkSize))` (exact rational
arithmetic; with the default `200 / 800` the JS double arithmetic is exact). -/
def overlapWordCount (dp : DPConfig) (n : ℕ) : ℕ :=
  (Int.ceil ((n : ℚ) * ((dp.chunkOverlap : ℚ) / (dp.chunkSize : ℚ)))).toNat

/-- `words.slice(-k)` for `k ≥ 1`: the last `k` elements. -/
def sliceLast (l : List Str) (k : ℕ) : List Str := l.drop (l.length - k)

/-- The accumulator loop of `DocumentProcessor.createChunks`: `cur` is
`currentChunk`, `curLen` is `currentLength`, `idx` is `chunkIndex`. -/
def createChunksGo (dp : DPConfig) (source : Str) :
    List Str → Str → ℕ → ℕ → List RawChunk
  | [], cur, _, idx =>
    if jsTrim cur = [] then []
    else [⟨chunkId source idx, jsTrim cur,
          ⟨source, idx, idx * (dp.chunkSize - dp.chunkOverlap),
           idx * (dp.chunkSize - dp.chunkOverlap) + cur.length⟩⟩]
  | s :: rest, cur, curLen, idx =>
    if dp.chunkSize < curLen + s.length && cur ≠ [] then
      let emitted : RawChunk :=
        ⟨chunkId source idx, jsTrim cur,
         ⟨source, idx, idx * (dp.chunkSize - dp.chunkOverlap),
          idx * (dp.chunkSize - dp.chunkOverlap) + cur.length⟩⟩
      let words := splitOnSpace cur
      let overlapWords := overlapWordCount dp words.length
      let seeded := joinSpace (sliceLast words overlapWords) ++ [' ']
      emitted :: createChunksGo dp source rest (seeded ++ s ++ [' '])
        (seeded.length + (s.length + 1)) (idx + 1)
    else
      createChunksGo dp source rest (cur ++ s ++ [' ']) (curLen + (s.length + 1)) idx

/-- `DocumentProcessor.createChunks`. -/
def createChunks (dp : DPConfig) (text : Str) (source : Str) : List RawChunk :=
  createChunksGo dp source (splitIntoSentences text) [] 0 0

/-- A chunk held by `VectorStore`: the raw chunk plus owner, embedding and
keyword bag added by `addDocument`. -/
structure StoredChunk where
  id : Str
  content : Str
  metadata : ChunkMeta
  docId : Str
  embedding : List ℚ
  keywords : List Str
deriving DecidableEq, Repr, Inhabited

/-- A document-registry entry (`addedAt` wall-clock timestamp omitted). -/
structure DocInfo where
  id : Str
  name : Str
  chunkCount : ℕ
deriving DecidableEq, Repr, Inhabited

/-- The state of `VectorStore`: the insertion-ordered document registry
(a JS `Map`) and the chunk list. -/
structure Store where
  documents : List (Str × DocInfo)
  chunks : List StoredChunk
deriving DecidableEq, Repr, Inhabited

/-- The freshly constructed store. -/
def emptyStore : Store := ⟨[], []⟩

/-- `Map.prototype.set`: overwrite in place if the key is present (keeping its
insertion position), otherwise append. -/
def mapSet (m : List (Str × DocInfo)) (k : Str) (v : DocInfo) : List (Str × DocInfo) :=
  if m.any (fun e => e.1 = k) then m.map (fun e => if e.1 = k then (k, v) else e)
  else m ++ [(k, v)]

/-- `Map.prototype.has`. -/
def mapHas (m : List (Str × DocInfo)) (k : Str) : Bool := m.any (fun e => e.1 = k)

/-- `Map.prototype.get` as an option. -/
def lookupDoc (s : Store) (k : Str) : Option DocInfo :=
  (s.documents.find? (fun e => e.1 = k)).map (·.2)

/-- `VectorStore.addDocument`: embed each chunk's content (truncated to 512
characters, as `generateEmbeddingsBatch` does), extract its keywords, tag it
with the owning document, register the document, and append the chunks.
Batching (20 at a time) preserves order and is modelled as a single map. -/
def addDocument (embed : Str → List ℚ) (s : Store) (docId : Str) (name : Str)
    (chunks : List RawChunk) : Store :=
  let processedChunks := chunks.map (fun c =>
    ⟨c.id, c.content, c.metadata, docId, embed (c.content.take 512),
     extractKeywords c.content⟩)
  { documents := mapSet s.documents docId ⟨docId, name, processedChunks.length⟩,
    chunks := s.chunks ++ processedChunks }

/-- `VectorStore.removeDocument`: throws `Document not found` before any
mutation when the id is unknown; otherwise drops the registry entry and every
chunk owned by the document. -/
def removeDocument (s : Store) (docId : Str) : Except String Store :=
  if ¬ mapHas s.documents docId then Except.error "Document not found"
  else Except.ok
    { documents := s.documents.filter (fun e => ¬ e.1 = docId),
      chunks := s.chunks.filter (fun c => ¬ c.docId = docId) }

/-- `VectorStore.clear`. -/
def clearStore : Store := ⟨[], []⟩

/-- `VectorStore.getDocumentCount`. -/
def getDocumentCount (s : Store) : ℕ := s.documents.length

/-- `VectorStore.getChunkCount`. -/
def getChunkCount (s : Store) : ℕ := s.chunks.length

/-- `VectorStore.hasDocuments`: `this.chunks.length > 0`. -/
def hasDocuments (s : Store) : Bool := 0 < s.chunks.length

/-- Sum of pairwise products over the indices of `a` (the loop of
`cosineSimilarity` runs over `a.length`; on embedding vectors of equal
dimension this matches the JS loop exactly). -/
def dotProduct (a b : List ℚ) : ℚ := (List.zipWith (· * ·) a b).sum

/-- Sum of squares. -/
def normSq (a : List ℚ) : ℚ := (a.map (fun x => x * x)).sum

/-- `VectorStore.cosineSimilarity`, with `Math.sqrt` abstracted as `sqrt`. -/
def cosineSimilarity (sqrt : ℚ → ℚ) (a b : List ℚ) : ℚ :=
  dotProduct a b / (sqrt (normSq a) * sqrt (normSq (b.take a.length)))

/-- `VectorStore.keywordMatch`. -/
def keywordMatch (queryKeywords chunkKeywords : List Str) : ℚ :=
  ((queryKeywords.filter (fun kw => chunkKeywords.contains kw)).length : ℚ) /
    ((max queryKeywords.length 1 : ℕ) : ℚ)

/-- Whether `needle` occurs at the start of `hay`. -/
def strStartsWith : Str → Str → Bool
  | [], _ => true
  | _ :: _, [] => false
  | a :: as, b :: bs => a = b && strStartsWith as bs

/-- `hay.includes(needle)`: substring containment. -/
def strIncludes (needle : Str) : Str → Bool
  | [] => strStartsWith needle []
  | c :: t => strStartsWith needle (c :: t) || strIncludes needle t

/-- The phrase-boost accumulation loop of `hybridSearch`: `+0.05` per
important word occurring in the lowercased content, `+0.1` if the two-word
phrase of the first two important words occurs. -/
def phraseBoostOf (queryKeywords : List Str) (contentLower : Str) : ℚ :=
  let importantWords := queryKeywords.take 5
  let base := importantWords.foldl
    (fun acc word => if strIncludes word contentLower then acc + 0.05 else acc) 0
  if 2 ≤ importantWords.length then
    if strIncludes (joinSpace (importantWords.take 2)) contentLower then base + 0.1
    else base
  else base

/-- A scored result of `hybridSearch` (the object literal built per chunk). -/
structure ScoredChunk where
  id : Str
  content : Str
  metadata : ChunkMeta
  docId : Str
  vectorScore : ℚ
  keywordScore : ℚ
  phraseBoost : ℚ
  score : ℚ
deriving DecidableEq, Repr, Inhabited

/-- The per-chunk scoring of `hybridSearch`, given the query embedding and
query keywords. -/
def scoreChunkWith (sqrt : ℚ → ℚ) (queryEmbedding : List ℚ)
    (queryKeywords : List Str) (chunk : StoredChunk) : ScoredChunk :=
  let vectorScore := cosineSimilarity sqrt queryEmbedding chunk.embedding
  let keywordScore := keywordMatch queryKeywords chunk.keywords
  let contentLower := toLowerStr chunk.content
  let phraseBoost := phraseBoostOf queryKeywords contentLower
  let combinedScore := vectorScore * 0.6 + keywordScore * 0.25 + min phraseBoost 0.15
  ⟨chunk.id, chunk.content, chunk.metadata, chunk.docId,
   vectorScore, keywordScore, phraseBoost, combinedScore⟩

/-- `VectorStore.hybridSearch` (`generateEmbedding` truncates the query to 512
characters before embedding). -/
def hybridSearch (sqrt : ℚ → ℚ) (embed : Str → List ℚ) (s : Store)
    (query : Str) (topK : ℕ) : List ScoredChunk :=
  if s.chunks.length = 0 then []
  else
    let queryEmbedding := embed (query.take 512)
    let queryKeywords := extractKeywords query
    let results := s.chunks.map (scoreChunkWith sqrt queryEmbedding queryKeywords)
    (stableSortByScore (fun r => r.score) results).take topK

/-- The abstract LLM backend: `generateResponse(prompt, context, history)`.
The context is `none` for a general query and `some context` (the assembled
source excerpts) for a grounded one. -/
abbrev LLM := Str → Option Str → List Str → Str

/-- A formatted citation from `LLMService.generateRAGResponse`.  `score`
models the combined score multiplied by 100; the `toFixed(1) + '%'` string
rendering is display-only and not modelled. -/
structure SourceRef where
  id : ℕ
  content : Str
  source : Str
  score : ℚ
  chunkIndex : ℕ
deriving DecidableEq, Repr, Inhabited

/-- `"[Source i - name]\ncontent"` for one retrieved chunk. -/
def sourceHeader (i : ℕ) (c : ScoredChunk) : Str :=
  "[Source ".data ++ natToStr i ++ " - ".data ++ c.metadata.source ++ "]\n".data
    ++ c.content

/-- The grounded context: source excerpts joined by `\n\n---\n\n`. -/
def ragContext (retrievedChunks : List ScoredChunk) : Str :=
  List.intercalate "\n\n---\n\n".data
    (retrievedChunks.enum.map (fun p => sourceHeader (p.1 + 1) p.2))

/-- The fixed answer of `generateRAGResponse` when no chunks are supplied. -/
def noInfoAnswer : Str :=
  "I couldn\x27t find any relevant information in the uploaded documents to answer your question.".data

/-- `LLMService.generateRAGResponse`: returns the answer and the formatted
citations. -/
def generateRAGResponse (llm : LLM) (query : Str) (retrievedChunks : List ScoredChunk)
    (conversationHistory : List Str) : Str × List SourceRef :=
  if retrievedChunks.length = 0 then (noInfoAnswer, [])
  else
    (llm query (some (ragContext retrievedChunks)) conversationHistory,
     retrievedChunks.enum.map (fun p =>
       ⟨p.1 + 1, p.2.content, p.2.metadata.source, p.2.score * 100,
        p.2.metadata.chunkIndex⟩))

/-- `LLMService.generateGeneralResponse`. -/
def generateGeneralResponse (llm : LLM) (query : Str)
    (conversationHistory : List Str) : Str × List SourceRef :=
  (llm query none conversationHistory, [])

/-- A chat response as assembled by `ChatRouter`.  `noRelevantResults` is
absent (`false`) except in the no-relevant-results reply; `retrievedCount` is
absent (`none`) where the source omits it. -/
structure ChatResponse where
  answer : Str
  mode : String
  sources : List SourceRef
  noRelevantResults : Bool
  retrievedCount : Option ℕ
deriving DecidableEq, Repr, Inhabited

/-- `ChatRouter.relevanceThreshold`. -/
def relevanceThreshold : ℚ := 0.15

/-- The hint terms of `ChatRouter.autoDetectMode`. -/
def documentKeywords : List Str :=
  (["document", "file", "uploaded", "says", "mentioned", "according to",
    "in the", "from the", "based on", "what does", "find", "search",
    "look for", "locate", "extract", "summarize", "summary"
   ] : List String).map String.data

/-- The fixed refusal of `ChatRouter.route` for RAG mode on an empty index. -/
def ragRefusalAnswer : Str :=
  "No documents have been uploaded yet. Please upload documents first to use RAG mode, or switch to General mode for open-ended questions.".data

/-- The refusal response: `mode = error`, empty sources, no LLM call. -/
def ragRefusalResponse : ChatResponse := ⟨ragRefusalAnswer, "error", [], false, none⟩

/-- The fixed answer of `handleRAGQuery` when even the fallback pass is empty. -/
def noRelevantAnswer : Str :=
  "I searched through the uploaded documents but couldn\x27t find information directly relevant to your question. Try rephrasing your question or ask something more specific about the document content.".data

/-- `ChatRouter.handleRAGQuery`: top-8 hybrid hits, primary filter at the
relevance threshold, fallback filter at `0.1` with the first 5 kept, fixed
no-relevant-results reply when both are empty. -/
def handleRAGQuery (sqrt : ℚ → ℚ) (embed : Str → List ℚ) (llm : LLM) (s : Store)
    (query : Str) (conversationHistory : List Str) : ChatResponse :=
  let retrievedChunks := hybridSearch sqrt embed s query 8
  let relevantChunks := retrievedChunks.filter (fun c => relevanceThreshold ≤ c.score)
  if relevantChunks.length = 0 then
    let fallbackChunks := retrievedChunks.filter (fun c => (0.1 : ℚ) ≤ c.score)
    if 0 < fallbackChunks.length then
      let response := generateRAGResponse llm query (fallbackChunks.take 5) conversationHistory
      ⟨response.1, "rag", response.2, false, some fallbackChunks.length⟩
    else ⟨noRelevantAnswer, "rag", [], true, none⟩
  else
    let response := generateRAGResponse llm query relevantChunks conversationHistory
    ⟨response.1, "rag", response.2, false, some relevantChunks.length⟩

/-- `ChatRouter.handleGeneralQuery`. -/
def handleGeneralQuery (llm : LLM) (query : Str)
    (conversationHistory : List Str) : ChatResponse :=
  let response := generateGeneralResponse llm query conversationHistory
  ⟨response.1, "general", response.2, false, none⟩

/-- `ChatRouter.autoDetectMode`. -/
def autoDetectMode (sqrt : ℚ → ℚ) (embed : Str → List ℚ) (s : Store)
    (query : Str) (hasDocs : Bool) : String :=
  if !hasDocs then "general"
  else
    let queryLower := toLowerStr query
    let isDocumentQuery := documentKeywords.any (fun kw => strIncludes kw queryLower)
    if isDocumentQuery then "rag"
    else
      let results := hybridSearch sqrt embed s query 1
      match results with
      | r :: _ => if relevanceThreshold < r.score then "rag" else "general"
      | [] => "general"

/-- `ChatRouter.route`: resolve the effective mode, short-circuit RAG on an
empty index with the fixed refusal, and dispatch. -/
def route (sqrt : ℚ → ℚ) (embed : Str → List ℚ) (llm : LLM) (s : Store)
    (query : Str) (requestedMode : String)
    (conversationHistory : List Str) : ChatResponse :=
  let hasDocs := hasDocuments s
  if requestedMode = "auto" then
    if autoDetectMode sqrt embed s query hasDocs = "rag" then
      handleRAGQuery sqrt embed llm s query conversationHistory
    else handleGeneralQuery llm query conversationHistory
  else if requestedMode = "rag" && !hasDocs then ragRefusalResponse
  else if requestedMode = "rag" then handleRAGQuery sqrt embed llm s query conversationHistory
  else handleGeneralQuery llm query conversationHistory

/-- The reachable states of the vector store: any sequence of document
additions (chunks produced by the chunker from a client-supplied name and
text, with a server-generated fresh document id), removals and clears.
Freshness of a new document id — the server draws a UUID per upload — is
captured by the two disequality premises. -/
inductive Reachable (embed : Str → List ℚ) : Store → Prop
  | empty : Reachable embed emptyStore
  | add (s : Store) (docId name text : Str) :
      Reachable embed s →
      (∀ e ∈ s.documents, e.1 ≠ docId) →
      (∀ c ∈ s.chunks, c.docId ≠ docId) →
      Reachable embed (addDocument embed s docId name (createChunks defaultDP text name))
  | remove (s s' : Store) (docId : Str) :
      Reachable embed s → removeDocument s docId = Except.ok s' → Reachable embed s'
  | clear (s : Store) : Reachable embed s → Reachable embed clearStore

/-- `lexStep` is reflexive when `inner` is. -/
theorem lexStep_refl {inner : α → α → Prop} (h : ∀ a, inner a a) (p : ℚ × α) :
    lexStep inner p p := Or.inr ⟨rfl, h p.2⟩

/-- `lexStep` is total when `inner` is. -/
theorem lexStep_total {inner : α → α → Prop} (h : ∀ a b, inner a b ∨ inner b a)
    (p q : ℚ × α) : lexStep inner p q ∨ lexStep inner q p := by
  rcases lt_trichotomy p.1 q.1 with hlt | heq | hgt
  · exact Or.inl (Or.inl hlt)
  · rcases h p.2 q.2 with hi | hi
    · exact Or.inl (Or.inr ⟨heq, hi⟩)
    · exact Or.inr (Or.inr ⟨heq.symm, hi⟩)
  · exact Or.inr (Or.inl hgt)

/-- `lexStep` is transitive when `inner` is. -/
theorem lexStep_trans {inner : α → α → Prop}
    (h : ∀ a b c, inner a b → inner b c → inner a c) (p q r : ℚ × α)
    (h₁ : lexStep inner p q) (h₂ : lexStep inner q r) : lexStep inner p r := by
  rcases h₁ with h₁ | ⟨e₁, i₁⟩ <;> rcases h₂ with h₂ | ⟨e₂, i₂⟩
  · exact Or.inl (h₁.trans h₂)
  · exact Or.inl (e₂ ▸ h₁)
  · exact Or.inl (e₁ ▸ h₂)
  · exact Or.inr ⟨e₁.trans e₂, h _ _ _ i₁ i₂⟩

/-- `lexStep` is antisymmetric when `inner` is. -/
theorem lexStep_antisymm {inner : α → α → Prop}
    (h : ∀ a b, inner a b → inner b a → a = b) (p q : ℚ × α)
    (h₁ : lexStep inner p q) (h₂ : lexStep inner q p) : p = q := by
  rcases h₁ with h₁ | ⟨e₁, i₁⟩ <;> rcases h₂ with h₂ | ⟨e₂, i₂⟩
  · exact absurd h₂ (lt_asymm h₁)
  · exact absurd (e₂ ▸ h₁) (lt_irrefl _)
  · exact absurd (e₁ ▸ h₂) (lt_irrefl _)
  · exact Prod.ext e₁ (h _ _ i₁ i₂)

/-- `lex4LE` is reflexive. -/
theorem lex4LE_refl (p : Key4) : lex4LE p p :=
  lexStep_refl (fun a => lexStep_refl (fun b => lexStep_refl (fun c => le_refl c) b) a) p

/-- `lex4LE` is total. -/
theorem lex4LE_total (p q : Key4) : lex4LE p q ∨ lex4LE q p :=
  lexStep_total (fun a b => lexStep_total (fun c d => lexStep_total
    (fun x y => le_total x y) c d) a b) p q

/-- `lex4LE` is transitive. -/
theorem lex4LE_trans (p q r : Key4) (h₁ : lex4LE p q) (h₂ : lex4LE q r) : lex4LE p r := by
  refine lexStep_trans (fun a b c => lexStep_trans (fun d e f => lexStep_trans ?_ d e f)
    a b c) p q r h₁ h₂
  exact fun x y z hxy hyz => le_trans hxy hyz

/-- `lex4LE` is antisymmetric. -/
theorem lex4LE_antisymm (p q : Key4) (h₁ : lex4LE p q) (h₂ : lex4LE q p) : p = q := by
  refine lexStep_antisymm (fun a b => lexStep_antisymm (fun c d => lexStep_antisymm ?_ c d)
    a b) p q h₁ h₂
  exact fun x y hxy hyx => le_antisymm hxy hyx

instance keyedLE_isTotal (f : α → Key4) : IsTotal α (keyedLE f) :=
  ⟨fun x y => lex4LE_total (f x) (f y)⟩

instance keyedLE_isTrans (f : α → Key4) : IsTrans α (keyedLE f) :=
  ⟨fun _ _ _ h₁ h₂ => lex4LE_trans _ _ _ h₁ h₂⟩

/-- `sortByKey` permutes its input. -/
theorem sortByKey_perm (f : α → Key4) (l : List α) : (sortByKey f l).Perm l :=
  List.perm_insertionSort (keyedLE f) l

/-- `sortByKey` sorts by the key. -/
theorem sortByKey_sorted (f : α → Key4) (l : List α) :
    List.Sorted (keyedLE f) (sortByKey f l) :=
  List.sorted_insertionSort (keyedLE f) l

/-- Two sorted permutations of each other coincide, given antisymmetry on the
elements actually present. -/
theorem perm_sorted_eq_on {r : α → α → Prop} :
    ∀ {l₁ l₂ : List α}, l₁.Perm l₂ → List.Sorted r l₁ → List.Sorted r l₂ →
      (∀ a ∈ l₁, ∀ b ∈ l₁, r a b → r b a → a = b) → l₁ = l₂ := by
  intro l₁
  induction l₁ with
  | nil => intro l₂ hp _ _ _; exact hp.symm.eq_nil.symm
  | cons a t₁ ih =>
    intro l₂ hp hs₁ hs₂ ha
    cases l₂ with
    | nil => exact absurd hp.eq_nil (by simp)
    | cons b t₂ =>
      have hab : a = b := by
        by_cases hq : a = b
        · exact hq
        · have hbmem : b ∈ a :: t₁ := hp.mem_iff.mpr (List.mem_cons_self b t₂)
          have hamem : a ∈ b :: t₂ := hp.mem_iff.mp (List.mem_cons_self a t₁)
          have hb₁ : b ∈ t₁ := by
            rcases List.mem_cons.mp hbmem with h | h
            · exact absurd h.symm hq
            · exact h
          have ha₂ : a ∈ t₂ := by
            rcases List.mem_cons.mp hamem with h | h
            · exact absurd h hq
            · exact h
          exact ha a (List.mem_cons_self a t₁) b hbmem
            (List.rel_of_sorted_cons hs₁ b hb₁) (List.rel_of_sorted_cons hs₂ a ha₂)
      subst hab
      have ht : t₁ = t₂ := ih hp.cons_inv hs₁.of_cons hs₂.of_cons
        (fun x hx y hy hxy hyx =>
          ha x (List.mem_cons_of_mem a hx) y (List.mem_cons_of_mem a hy) hxy hyx)
      rw [ht]

/-- The first components of `enumFrom` are strictly increasing. -/
theorem pairwise_fst_enumFrom (l : List α) :
    ∀ n : ℕ, (l.enumFrom n).Pairwise (fun p q => p.1 < q.1) := by
  induction l with
  | nil => intro n; simp
  | cons a t ih =>
    intro n
    refine List.Pairwise.cons ?_ (ih (n + 1))
    intro q hq
    have : n + 1 ≤ q.1 := (List.le_fst_of_mem_enumFrom hq)
    omega

/-- The first components of `enum` are strictly increasing. -/
theorem pairwise_fst_enum (l : List α) :
    l.enum.Pairwise (fun p q => p.1 < q.1) := pairwise_fst_enumFrom l 0

/-- Dropping a prefix satisfying `p` is idempotent. -/
theorem dropWhile_self_idem (p : α → Bool) (l : List α) :
    (l.dropWhile p).dropWhile p = l.dropWhile p := by
  induction l with
  | nil => simp
  | cons a t ih =>
    by_cases h : p a
    · simp [List.dropWhile_cons, h, ih]
    · simp [List.dropWhile_cons, h]

/-- A prefix of a list with no removable head has no removable head. -/
theorem dropWhile_eq_self_of_prefix {p : α → Bool} {w v : List α}
    (hpre : w <+: v) (hv : v.dropWhile p = v) : w.dropWhile p = w := by
  cases w with
  | nil => simp
  | cons a w' =>
    obtain ⟨t, ht⟩ := hpre
    subst ht
    rw [List.cons_append] at hv
    have hpa : p a = false := by
      by_contra hpa
      have hpa' : p a = true := by simpa using hpa
      rw [List.dropWhile_cons, hpa'] at hv
      simp only [if_true] at hv
      have hlen := (List.dropWhile_suffix (l := w' ++ t) p).length_le
      rw [hv] at hlen
      simp at hlen
    simp [List.dropWhile_cons, hpa]

/-- `jsTrim` is idempotent: trimmed strings are trimmed. -/
theorem jsTrim_idem (s : Str) : jsTrim (jsTrim s) = jsTrim s := by
  have h1 : (jsTrim s).dropWhile isSpaceJS = jsTrim s := by
    refine dropWhile_eq_self_of_prefix (v := s.dropWhile isSpaceJS) ?_
      (dropWhile_self_idem _ s)
    have hsuf : ((s.dropWhile isSpaceJS).reverse.dropWhile isSpaceJS) <:+
        (s.dropWhile isSpaceJS).reverse := List.dropWhile_suffix _
    have := List.reverse_prefix.mpr hsuf
    simpa [jsTrim] using this
  show ((jsTrim s |>.dropWhile isSpaceJS).reverse.dropWhile isSpaceJS).reverse = jsTrim s
  rw [h1]
  have h2 : (jsTrim s).reverse = (s.dropWhile isSpaceJS).reverse.dropWhile isSpaceJS := by
    simp [jsTrim]
  rw [h2, dropWhile_self_idem]
  rfl

/-- Every chunk content produced by the chunker loop is some trimmed string. -/
theorem createChunksGo_content_trimmed (dp : DPConfig) (source : Str) :
    ∀ (sents : List Str) (cur : Str) (curLen idx : ℕ),
      ∀ c ∈ createChunksGo dp source sents cur curLen idx,
        ∃ raw, c.content = jsTrim raw := by
  intro sents
  induction sents with
  | nil =>
    intro cur curLen idx c hc
    unfold createChunksGo at hc
    split_ifs at hc with h
    · simp at hc
    · simp at hc
      exact ⟨cur, by rw [hc]⟩
  | cons s rest ih =>
    intro cur curLen idx c hc
    unfold createChunksGo at hc
    split_ifs at hc with h
    · rcases List.mem_cons.mp hc with hc | hc
      · exact ⟨cur, by rw [hc]⟩
      · exact ih _ _ _ c hc
    · exact ih _ _ _ c hc

/-- C9 (amended): every chunk produced by `createChunks` has trimmed content.
No chunk-size bound holds in general (see the counterexample). -/
theorem createChunks_content_trimmed (dp : DPConfig) (text source : Str) :
    ∀ c ∈ createChunks dp text source, jsTrim c.content = c.content := by
  intro c hc
  obtain ⟨raw, hraw⟩ := createChunksGo_content_trimmed dp source _ _ _ _ c hc
  rw [hraw, jsTrim_idem]

/-- The single chunk produced from the text `hello world.`. -/
def c9chunk : RawChunk :=
  ⟨chunkId ("a.txt".data) 0, "hello world.".data, ⟨"a.txt".data, 0, 0, 13⟩⟩

/-- Witness for C9: the theorem applied to a concrete chunk of a concrete run. -/
theorem createChunks_content_trimmed_witness : jsTrim c9chunk.content = c9chunk.content :=
  createChunks_content_trimmed defaultDP ("hello world.".data) ("a.txt".data)
    c9chunk (by decide)

set_option maxRecDepth 40000 in
/-- Counterexample for C9 as stated: a single sentence of 801 characters
yields a chunk whose content exceeds the default chunk size 800. -/
theorem createChunks_oversize_counterexample :
    ¬ (∀ (text source : Str), ∀ c ∈ createChunks defaultDP text source,
        c.content.length ≤ defaultDP.chunkSize) := fun h => by
  have h₂ : ∃ c ∈ createChunks defaultDP (List.replicate 801 'a') ("f".data),
      ¬ c.content.length ≤ defaultDP.chunkSize := by decide
  obtain ⟨c, hc, hlen⟩ := h₂
  exact hlen (h _ _ c hc)

/-- Removing the (unique) entry with key `k` shortens the registry by one. -/
theorem filter_key_length (m : List (Str × DocInfo)) (k : Str)
    (hn : (m.map (fun e => e.1)).Nodup) (hk : mapHas m k = true) :
    (m.filter (fun e => ¬ e.1 = k)).length + 1 = m.length := by
  induction m with
  | nil => simp [mapHas] at hk
  | cons e t ih =>
    by_cases he : e.1 = k
    · have hnotin : e.1 ∉ t.map (fun e => e.1) := (List.nodup_cons.mp hn).1
      have hall : ∀ a ∈ t, ¬ a.1 = k := by
        intro a ha hak
        exact hnotin (by rw [he, ← hak]; exact List.mem_map_of_mem _ ha)
      have hfix : t.filter (fun e => ¬ e.1 = k) = t :=
        List.filter_eq_self.mpr (fun a ha => by simpa using hall a ha)
      rw [List.filter_cons, if_neg (by simp [he]), hfix, List.length_cons]
    · have hkt : mapHas t k = true := by
        rcases List.any_eq_true.mp hk with ⟨a, ha, hak⟩
        rcases List.mem_cons.mp ha with rfl | ha'
        · exact absurd (of_decide_eq_true hak) he
        · exact List.any_eq_true.mpr ⟨a, ha', hak⟩
      have ih' := ih (List.nodup_cons.mp hn).2 hkt
      rw [List.filter_cons, if_pos (by simp [he]), List.length_cons, List.length_cons]
      omega

/-- C7: `removeDocument(docId)` fails with the unknown-document error exactly
when `docId` is not in the registry (the check precedes any mutation, so a
failing call leaves the store unchanged); on success no chunk with that owner
remains and the document count drops by exactly one. -/
theorem removeDocument_c7 (s : Store) (docId : Str) :
    (removeDocument s docId = Except.error "Document not found" ↔
      mapHas s.documents docId = false) ∧
    (mapHas s.documents docId = true → ∃ s', removeDocument s docId = Except.ok s') ∧
    (∀ s', removeDocument s docId = Except.ok s' →
      (∀ c ∈ s'.chunks, ¬ c.docId = docId) ∧
      ((s.documents.map (fun e => e.1)).Nodup →
        getDocumentCount s' + 1 = getDocumentCount s)) := by
  refine ⟨?_, ?_, ?_⟩
  · by_cases h : mapHas s.documents docId = true
    · simp [removeDocument, h]
    · have hf : mapHas s.documents docId = false := by simpa using h
      simp [removeDocument, hf]
  · intro h
    refine ⟨{ documents := s.documents.filter (fun e => ¬ e.1 = docId),
              chunks := s.chunks.filter (fun c => ¬ c.docId = docId) }, ?_⟩
    simp [removeDocument, h]
  · intro s' hok
    by_cases h : mapHas s.documents docId = true
    · have hred : removeDocument s docId = Except.ok
          { documents := s.documents.filter (fun e => ¬ e.1 = docId),
            chunks := s.chunks.filter (fun c => ¬ c.docId = docId) } := by
        simp [removeDocument, h]
      rw [hred] at hok
      have hs' := Except.ok.inj hok
      subst hs'
      constructor
      · intro c hc
        have := (List.mem_filter.mp hc).2
        simpa using this
      · intro hn
        exact filter_key_length s.documents docId hn h
    · simp [removeDocument, h] at hok

/-- A one-document, one-chunk store for the C7 witness. -/
def c7store : Store :=
  ⟨[("d1".data, ⟨"d1".data, "a.txt".data, 1⟩)],
   [⟨"a.txt-chunk-0".data, "hello".data, ⟨"a.txt".data, 0, 0, 5⟩, "d1".data, [1], []⟩]⟩

/-- The store after removing `d1` from `c7store`. -/
def c7removed : Store := ⟨[], []⟩

/-- Witness for C7 at concrete inputs: a successful removal and a failing one. -/
theorem removeDocument_c7_witness :
    (∀ c ∈ c7removed.chunks, ¬ c.docId = "d1".data) ∧
    getDocumentCount c7removed + 1 = getDocumentCount c7store ∧
    (removeDocument c7store ("zz".data) = Except.error "Document not found" ↔
      mapHas c7store.documents ("zz".data) = false) :=
  let h := (removeDocument_c7 c7store ("d1".data)).2.2 c7removed (by rfl)
  ⟨h.1, h.2 (by decide), (removeDocument_c7 c7store ("zz".data)).1⟩

/-- After an in-place update, lookup at the updated key finds the new value. -/
theorem find?_map_update (m : List (Str × DocInfo)) (k : Str) (v : DocInfo)
    (h : m.any (fun e => e.1 = k) = true) :
    (m.map (fun e => if e.1 = k then (k, v) else e)).find? (fun e => e.1 = k)
      = some (k, v) := by
  induction m with
  | nil => simp at h
  | cons e t ih =>
    by_cases he : e.1 = k
    · simp [he]
    · have ht : t.any (fun e => e.1 = k) = true := by
        rcases List.any_eq_true.mp h with ⟨a, ha, hak⟩
        rcases List.mem_cons.mp ha with rfl | ha'
        · exact absurd (of_decide_eq_true hak) he
        · exact List.any_eq_true.mpr ⟨a, ha', hak⟩
      simp [he, ih ht]

/-- After appending a fresh entry, lookup at its key finds it. -/
theorem find?_append_new (m : List (Str × DocInfo)) (k : Str) (v : DocInfo)
    (h : m.any (fun e => e.1 = k) = false) :
    ((m ++ [(k, v)]).find? (fun e => e.1 = k)) = some (k, v) := by
  have hnone : m.find? (fun e => e.1 = k) = none := by
    rw [List.find?_eq_none]
    intro x hx hxk
    have hxq : m.any (fun e => e.1 = k) = true := List.any_eq_true.mpr ⟨x, hx, hxk⟩
    rw [h] at hxq
    exact Bool.false_ne_true hxq
  rw [List.find?_append, hnone]
  simp

/-- `Map.set` followed by `Map.get` at the same key yields the set value. -/
theorem find?_mapSet_self (m : List (Str × DocInfo)) (k : Str) (v : DocInfo) :
    (mapSet m k v).find? (fun e => e.1 = k) = some (k, v) := by
  unfold mapSet
  by_cases h : m.any (fun e => e.1 = k) = true
  · rw [if_pos h]; exact find?_map_update m k v h
  · rw [if_neg h]; exact find?_append_new m k v (Bool.eq_false_iff.mpr h)

/-- `Map.set` leaves the map non-empty. -/
theorem mapSet_length_pos (m : List (Str × DocInfo)) (k : Str) (v : DocInfo) :
    0 < (mapSet m k v).length := by
  unfold mapSet
  by_cases h : m.any (fun e => e.1 = k) = true
  · rw [if_pos h]
    cases m
    · simp at h
    · simp
  · rw [if_neg h]; simp

/-- C10: `hasDocuments()` is true exactly when the chunk count is positive;
after `addDocument` with an empty chunk list the registry holds a document
with `chunkCount = 0` while `hasDocuments()` is unchanged, so on a previously
chunk-less store the router refuses RAG mode and resolves auto mode to
general, treating the corpus as empty. -/
theorem hasDocuments_c10 (sqrt : ℚ → ℚ) (embed : Str → List ℚ) (llm : LLM)
    (s : Store) (docId name query : Str) (history : List Str) :
    (hasDocuments s = true ↔ 0 < s.chunks.length) ∧
    (addDocument embed s docId name []).chunks = s.chunks ∧
    lookupDoc (addDocument embed s docId name []) docId = some ⟨docId, name, 0⟩ ∧
    0 < getDocumentCount (addDocument embed s docId name []) ∧
    (hasDocuments s = false →
      hasDocuments (addDocument embed s docId name []) = false ∧
      route sqrt embed llm (addDocument embed s docId name []) query "rag" history =
        ragRefusalResponse ∧
      route sqrt embed llm (addDocument embed s docId name []) query "auto" history =
        handleGeneralQuery llm query history) := by
  have hch : (addDocument embed s docId name []).chunks = s.chunks := by
    simp [addDocument]
  refine ⟨by simp [hasDocuments], hch, ?_, ?_, ?_⟩
  · show (((addDocument embed s docId name []).documents.find?
      (fun e => e.1 = docId)).map (fun e => e.2)) = some ⟨docId, name, 0⟩
    have : (addDocument embed s docId name []).documents =
        mapSet s.documents docId ⟨docId, name, 0⟩ := by
      simp [addDocument]
    rw [this, find?_mapSet_self]
    rfl
  · show 0 < (addDocument embed s docId name []).documents.length
    have : (addDocument embed s docId name []).documents =
        mapSet s.documents docId ⟨docId, name, 0⟩ := by
      simp [addDocument]
    rw [this]
    exact mapSet_length_pos _ _ _
  · intro hf
    have hf' : hasDocuments (addDocument embed s docId name []) = false := by
      simpa [hasDocuments, hch] using hf
    refine ⟨hf', ?_, ?_⟩
    · simp [route, hf']
    · simp [route, autoDetectMode, hf']

/-- Concrete parameters for witnessing router claims. -/
def wSqrt : ℚ → ℚ := fun _ => 1

/-- A constant unit embedding. -/
def wEmbed : Str → List ℚ := fun _ => [1]

/-- A concrete opaque LLM. -/
def wLLM : LLM := fun _ _ _ => "answer".data

/-- Witness for C10: adding an empty document to the empty store leaves the
router treating the corpus as empty. -/
theorem hasDocuments_c10_witness :
    hasDocuments (addDocument wEmbed emptyStore ("d1".data) ("empty.txt".data) []) = false ∧
    route wSqrt wEmbed wLLM (addDocument wEmbed emptyStore ("d1".data) ("empty.txt".data) [])
      ("hi".data) "rag" [] = ragRefusalResponse ∧
    route wSqrt wEmbed wLLM (addDocument wEmbed emptyStore ("d1".data) ("empty.txt".data) [])
      ("hi".data) "auto" [] = handleGeneralQuery wLLM ("hi".data) [] :=
  (hasDocuments_c10 wSqrt wEmbed wLLM emptyStore ("d1".data) ("empty.txt".data)
    ("hi".data) []).2.2.2.2 (by decide)

/-- C2: mode resolution of `ChatRouter.route`.  Requested RAG on an empty
index returns the fixed refusal (`mode = error`, no sources) for every LLM,
i.e. without consulting it; auto mode resolves to general on an empty index,
to rag when a hint term occurs case-insensitively in the query, and otherwise
to rag exactly when the top hybrid-search score strictly exceeds the
relevance threshold 0.15. -/
theorem route_c2 (sqrt : ℚ → ℚ) (embed : Str → List ℚ) (llm : LLM) (s : Store)
    (query : Str) (history : List Str) :
    (hasDocuments s = false →
      route sqrt embed llm s query "rag" history = ragRefusalResponse) ∧
    (route sqrt embed llm s query "auto" history =
      if autoDetectMode sqrt embed s query (hasDocuments s) = "rag"
      then handleRAGQuery sqrt embed llm s query history
      else handleGeneralQuery llm query history) ∧
    (hasDocuments s = false →
      autoDetectMode sqrt embed s query (hasDocuments s) = "general") ∧
    (hasDocuments s = true →
      (∃ kw ∈ documentKeywords, strIncludes kw (toLowerStr query) = true) →
      autoDetectMode sqrt embed s query (hasDocuments s) = "rag") ∧
    (hasDocuments s = true →
      (∀ kw ∈ documentKeywords, ¬ strIncludes kw (toLowerStr query) = true) →
      ((∃ r rest, hybridSearch sqrt embed s query 1 = r :: rest ∧
          relevanceThreshold < r.score) →
        autoDetectMode sqrt embed s query (hasDocuments s) = "rag") ∧
      (¬ (∃ r rest, hybridSearch sqrt embed s query 1 = r :: rest ∧
          relevanceThreshold < r.score) →
        autoDetectMode sqrt embed s query (hasDocuments s) = "general")) := by
  refine ⟨?_, ?_, ?_, ?_, ?_⟩
  · intro hd
    simp [route, hd]
  · simp [route]
  · intro hd
    rw [hd]
    simp [autoDetectMode]
  · intro hd hkw
    rw [hd]
    have hany : documentKeywords.any (fun kw => strIncludes kw (toLowerStr query)) = true :=
      List.any_eq_true.mpr hkw
    simp [autoDetectMode, hany]
  · intro hd hn
    rw [hd]
    have hany : documentKeywords.any (fun kw => strIncludes kw (toLowerStr query)) = false := by
      rw [List.any_eq_false]
      exact hn
    constructor
    · rintro ⟨r, rest, hres, hscore⟩
      simp [autoDetectMode, hany, hres, hscore]
    · intro hno
      cases hres : hybridSearch sqrt embed s query 1 with
      | nil => simp [autoDetectMode, hany, hres]
      | cons r rest =>
        have hnr : ¬ relevanceThreshold < r.score := fun hc => hno ⟨r, rest, hres, hc⟩
        simp [autoDetectMode, hany, hres, hnr]

/-- A chunk whose constant-embedding score lands in the fallback band. -/
def lowChunk : StoredChunk :=
  ⟨"b-chunk-0".data, "unrelated words entirely".data, ⟨"b".data, 0, 0, 24⟩,
   "d2".data, [1/5], extractKeywords ("unrelated words entirely".data)⟩

/-- A one-chunk store whose top score is 0.12. -/
def lowStore : Store := ⟨[("d2".data, ⟨"d2".data, "b".data, 1⟩)], [lowChunk]⟩

/-- The scored result of `lowChunk` for the query `zzzq`. -/
def lowScored : ScoredChunk :=
  ⟨"b-chunk-0".data, "unrelated words entirely".data, ⟨"b".data, 0, 0, 24⟩,
   "d2".data, 1/5, 0, 0, 0.12⟩

/-- A chunk whose constant-embedding score is 0.6. -/
def highChunk : StoredChunk :=
  ⟨"c-chunk-0".data, "unrelated words entirely".data, ⟨"c".data, 0, 0, 24⟩,
   "d3".data, [1], extractKeywords ("unrelated words entirely".data)⟩

/-- A one-chunk store whose top score is 0.6. -/
def highStore : Store := ⟨[("d3".data, ⟨"d3".data, "c".data, 1⟩)], [highChunk]⟩

/-- The scored result of `highChunk` for the query `zzzq`. -/
def highScored : ScoredChunk :=
  ⟨"c-chunk-0".data, "unrelated words entirely".data, ⟨"c".data, 0, 0, 24⟩,
   "d3".data, 1, 0, 0, 0.6⟩

unseal Rat.mul Rat.add Rat.inv Rat.sub Rat.ofScientific in
/-- Witness for C2: each branch of the routing policy at concrete inputs. -/
theorem route_c2_witness :
    route wSqrt wEmbed wLLM emptyStore ("hello".data) "rag" [] = ragRefusalResponse ∧
    autoDetectMode wSqrt wEmbed emptyStore ("hello".data) (hasDocuments emptyStore)
      = "general" ∧
    autoDetectMode wSqrt wEmbed highStore ("what does the document say".data)
      (hasDocuments highStore) = "rag" ∧
    autoDetectMode wSqrt wEmbed highStore ("zzzq".data) (hasDocuments highStore) = "rag" ∧
    autoDetectMode wSqrt wEmbed lowStore ("zzzq".data) (hasDocuments lowStore) = "general" :=
  ⟨(route_c2 wSqrt wEmbed wLLM emptyStore ("hello".data) []).1 (by decide),
   (route_c2 wSqrt wEmbed wLLM emptyStore ("hello".data) []).2.2.1 (by decide),
   (route_c2 wSqrt wEmbed wLLM highStore ("what does the document say".data) []).2.2.2.1
     (by decide) (by decide),
   ((route_c2 wSqrt wEmbed wLLM highStore ("zzzq".data) []).2.2.2.2 (by decide)
     (by decide)).1 ⟨highScored, [], by decide, by decide⟩,
   ((route_c2 wSqrt wEmbed wLLM lowStore ("zzzq".data) []).2.2.2.2 (by decide)
     (by decide)).2
     (by
       rintro ⟨r, rest, heq, hlt⟩
       have hEval : hybridSearch wSqrt wEmbed lowStore ("zzzq".data) 1 = [lowScored] := by
         decide
       rw [hEval] at heq
       cases heq
       exact (by decide : ¬ relevanceThreshold < lowScored.score) hlt)⟩

/-- The top-8 hybrid hits passing the primary relevance filter. -/
def relevantOf (sqrt : ℚ → ℚ) (embed : Str → List ℚ) (s : Store) (query : Str) :
    List ScoredChunk :=
  (hybridSearch sqrt embed s query 8).filter (fun c => relevanceThreshold ≤ c.score)

/-- The top-8 hybrid hits passing the fallback filter at `0.1`. -/
def fallbackOf (sqrt : ℚ → ℚ) (embed : Str → List ℚ) (s : Store) (query : Str) :
    List ScoredChunk :=
  (hybridSearch sqrt embed s query 8).filter (fun c => (0.1 : ℚ) ≤ c.score)

/-- C3: grounded handling.  With a non-empty primary set the LLM is called on
it; with an empty primary set but non-empty fallback set at most
`fallback_k = 5` chunks are kept for both the prompt and the sources; with
both empty the fixed no-relevant-results reply is returned (for every LLM,
i.e. without calling it). -/
theorem handleRAGQuery_c3 (sqrt : ℚ → ℚ) (embed : Str → List ℚ) (llm : LLM)
    (s : Store) (query : Str) (history : List Str) :
    (relevantOf sqrt embed s query ≠ [] →
      handleRAGQuery sqrt embed llm s query history =
        ⟨(generateRAGResponse llm query (relevantOf sqrt embed s query) history).1, "rag",
         (generateRAGResponse llm query (relevantOf sqrt embed s query) history).2, false,
         some (relevantOf sqrt embed s query).length⟩) ∧
    (relevantOf sqrt embed s query = [] → fallbackOf sqrt embed s query ≠ [] →
      handleRAGQuery sqrt embed llm s query history =
        ⟨llm query (some (ragContext ((fallbackOf sqrt embed s query).take 5))) history,
         "rag",
         (generateRAGResponse llm query ((fallbackOf sqrt embed s query).take 5) history).2,
         false, some (fallbackOf sqrt embed s query).length⟩ ∧
      (handleRAGQuery sqrt embed llm s query history).sources.length ≤ 5) ∧
    (relevantOf sqrt embed s query = [] → fallbackOf sqrt embed s query = [] →
      handleRAGQuery sqrt embed llm s query history =
        ⟨noRelevantAnswer, "rag", [], true, none⟩) := by
  refine ⟨?_, ?_, ?_⟩
  · intro hrel
    unfold relevantOf at hrel ⊢
    simp only [handleRAGQuery]
    rw [if_neg (fun h0 => hrel (List.length_eq_zero.mp h0))]
  · intro hrel hfb
    unfold relevantOf at hrel
    unfold fallbackOf at hfb ⊢
    have hfblen : 0 < ((hybridSearch sqrt embed s query 8).filter
        (fun c => (0.1 : ℚ) ≤ c.score)).length := by
      cases hq : (hybridSearch sqrt embed s query 8).filter (fun c => (0.1 : ℚ) ≤ c.score) with
      | nil => exact absurd hq hfb
      | cons a t => simp
    have htakelen : ¬ (((hybridSearch sqrt embed s query 8).filter
        (fun c => (0.1 : ℚ) ≤ c.score)).take 5).length = 0 := by
      rw [List.length_take]
      omega
    constructor
    · simp only [handleRAGQuery]
      rw [if_pos (by rw [hrel]; rfl), if_pos hfblen]
      unfold generateRAGResponse
      rw [if_neg htakelen]
    · simp only [handleRAGQuery]
      rw [if_pos (by rw [hrel]; rfl), if_pos hfblen]
      show (generateRAGResponse llm query _ history).2.length ≤ 5
      unfold generateRAGResponse
      rw [if_neg htakelen]
      show (List.map _ (List.enum _)).length ≤ 5
      rw [List.length_map, List.enum_length, List.length_take]
      omega
  · intro hrel hfb
    unfold relevantOf at hrel
    unfold fallbackOf at hfb
    simp only [handleRAGQuery]
    rw [if_pos (by rw [hrel]; rfl), if_neg (by rw [hfb]; simp)]

unseal Rat.mul Rat.add Rat.inv Rat.sub Rat.ofScientific in
/-- Witness for C3: the three grounded-handling branches at concrete inputs
(primary hit at score 0.6; fallback-only hit at score 0.12; empty index). -/
theorem handleRAGQuery_c3_witness :
    handleRAGQuery wSqrt wEmbed wLLM highStore ("zzzq".data) [] =
      ⟨(generateRAGResponse wLLM ("zzzq".data)
          (relevantOf wSqrt wEmbed highStore ("zzzq".data)) []).1, "rag",
       (generateRAGResponse wLLM ("zzzq".data)
          (relevantOf wSqrt wEmbed highStore ("zzzq".data)) []).2, false,
       some (relevantOf wSqrt wEmbed highStore ("zzzq".data)).length⟩ ∧
    (handleRAGQuery wSqrt wEmbed wLLM lowStore ("zzzq".data) []).sources.length ≤ 5 ∧
    handleRAGQuery wSqrt wEmbed wLLM emptyStore ("zzzq".data) [] =
      ⟨noRelevantAnswer, "rag", [], true, none⟩ :=
  ⟨(handleRAGQuery_c3 wSqrt wEmbed wLLM highStore ("zzzq".data) []).1 (by decide),
   ((handleRAGQuery_c3 wSqrt wEmbed wLLM lowStore ("zzzq".data) []).2.1
     (by decide) (by decide)).2,
   (handleRAGQuery_c3 wSqrt wEmbed wLLM emptyStore ("zzzq".data) []).2.2
     (by decide) (by decide)⟩

/-- Sums of squares are nonnegative. -/
theorem normSq_nonneg (l : List ℚ) : 0 ≤ normSq l := by
  unfold normSq
  refine List.sum_nonneg ?_
  intro y hy
  obtain ⟨x, _, rfl⟩ := List.mem_map.mp hy
  exact mul_self_nonneg x

/-- Cauchy–Schwarz for the index pattern of the `cosineSimilarity` loop: the
dot product runs over the indices of `a`, the second norm over the matching
prefix of `b`. -/
theorem zipWith_cauchy_schwarz (a : List ℚ) :
    ∀ b : List ℚ, ((List.zipWith (· * ·) a b).sum) ^ 2 ≤
      normSq a * normSq (b.take a.length) := by
  induction a with
  | nil => intro b; simp [normSq]
  | cons x xs ih =>
    intro b
    cases b with
    | nil =>
      simp only [List.zipWith_nil_right, List.sum_nil, List.take_nil]
      have h1 : normSq ([] : List ℚ) = 0 := by simp [normSq]
      rw [h1, mul_zero]
      norm_num
    | cons y ys =>
      have hS := ih ys
      have hA : 0 ≤ normSq xs := normSq_nonneg xs
      have hB : 0 ≤ normSq (ys.take xs.length) := normSq_nonneg _
      have hxs : normSq (x :: xs) = x * x + normSq xs := by simp [normSq]
      have hys : normSq ((y :: ys).take (x :: xs).length) =
          y * y + normSq (ys.take xs.length) := by
        simp [normSq, List.take_succ_cons]
      rw [List.zipWith_cons_cons, List.sum_cons, hxs, hys]
      set S := (List.zipWith (· * ·) xs ys).sum
      set A := normSq xs
      set B := normSq (ys.take xs.length)
      rcases eq_or_lt_of_le hB with hB0 | hBpos
      · have hS2 : S ^ 2 ≤ 0 := by rw [← hB0, mul_zero] at hS; exact hS
        have hS0 : S = 0 := by
          have h2 : S ^ 2 = 0 := le_antisymm hS2 (sq_nonneg S)
          exact (pow_eq_zero_iff two_ne_zero).mp h2
        rw [hS0, ← hB0]
        nlinarith [sq_nonneg y, mul_self_nonneg x, hA, sq_nonneg (x * y)]
      · nlinarith [sq_nonneg (x * B - y * S), hS, hBpos, hA,
          mul_self_nonneg x, mul_self_nonneg y]

/-- For unit-norm inputs (and a square root fixed at `sqrt 1 = 1`) the cosine
similarity is the dot product and lies in `[-1, 1]`. -/
theorem cosineSimilarity_bounds (sqrt : ℚ → ℚ) (a b : List ℚ)
    (hs : sqrt 1 = 1) (ha : normSq a = 1) (hb : normSq (b.take a.length) = 1) :
    -1 ≤ cosineSimilarity sqrt a b ∧ cosineSimilarity sqrt a b ≤ 1 := by
  have hcs := zipWith_cauchy_schwarz a b
  rw [ha, hb, one_mul] at hcs
  have hval : cosineSimilarity sqrt a b = dotProduct a b := by
    unfold cosineSimilarity
    rw [ha, hb, hs, one_mul, div_one]
  rw [hval]
  have habs : |dotProduct a b| ≤ 1 := by
    rw [← sq_le_one_iff_abs_le_one]
    exact hcs
  exact abs_le.mp habs

/-- `keywordMatch` lies in `[0, 1]`. -/
theorem keywordMatch_bounds (q c : List Str) :
    0 ≤ keywordMatch q c ∧ keywordMatch q c ≤ 1 := by
  unfold keywordMatch
  have hden : (0 : ℚ) < ((max q.length 1 : ℕ) : ℚ) := by
    have : 1 ≤ max q.length 1 := le_max_right _ _
    exact_mod_cast Nat.lt_of_lt_of_le Nat.zero_lt_one this
  constructor
  · exact div_nonneg (by positivity) (le_of_lt hden)
  · rw [div_le_one hden]
    have hlen : (q.filter (fun kw => c.contains kw)).length ≤ q.length :=
      List.length_filter_le _ _
    have : (q.filter (fun kw => c.contains kw)).length ≤ max q.length 1 :=
      le_trans hlen (le_max_left _ _)
    exact_mod_cast this

/-- The word loop of the phrase boost adds at most `0.05` per word. -/
theorem boost_foldl_bounds (cl : Str) :
    ∀ (ws : List Str) (init : ℚ),
      init ≤ ws.foldl (fun acc word =>
        if strIncludes word cl then acc + 0.05 else acc) init ∧
      ws.foldl (fun acc word =>
        if strIncludes word cl then acc + 0.05 else acc) init ≤
        init + 0.05 * ws.length := by
  intro ws
  induction ws with
  | nil => intro init; simp
  | cons w ws ih =>
    intro init
    rw [List.foldl_cons]
    by_cases h : strIncludes w cl
    · rw [if_pos h]
      refine ⟨le_trans (by norm_num) (ih (init + 0.05)).1, ?_⟩
      refine le_trans (ih (init + 0.05)).2 ?_
      simp only [List.length_cons]
      push_cast
      ring_nf
      norm_num
    · rw [if_neg h]
      refine ⟨(ih init).1, le_trans (ih init).2 ?_⟩
      simp only [List.length_cons]
      push_cast
      nlinarith [Nat.cast_nonneg (α := ℚ) ws.length]

/-- The raw phrase boost lies in `[0, 0.35]`. -/
theorem phraseBoostOf_bounds (q : List Str) (cl : Str) :
    0 ≤ phraseBoostOf q cl ∧ phraseBoostOf q cl ≤ 0.35 := by
  unfold phraseBoostOf
  have hlen : ((q.take 5).length : ℚ) ≤ 5 := by
    have h5 : (q.take 5).length ≤ 5 := by
      rw [List.length_take]; exact min_le_left _ _
    exact_mod_cast h5
  have hb := boost_foldl_bounds cl (q.take 5) 0
  have hb0 : (0 : ℚ) ≤ (q.take 5).foldl (fun acc word =>
      if strIncludes word cl then acc + 0.05 else acc) 0 := hb.1
  have hb1 : (q.take 5).foldl (fun acc word =>
      if strIncludes word cl then acc + 0.05 else acc) (0 : ℚ) ≤ 0.25 := by
    refine le_trans hb.2 ?_
    have : (0.05 : ℚ) * (q.take 5).length ≤ 0.05 * 5 := by nlinarith
    nlinarith
  by_cases h2 : 2 ≤ (q.take 5).length
  · rw [if_pos h2]
    by_cases hph : strIncludes (joinSpace ((q.take 5).take 2)) cl
    · rw [if_pos hph]
      constructor <;> nlinarith
    · rw [if_neg hph]
      constructor <;> nlinarith
  · rw [if_neg h2]
    constructor <;> nlinarith

/-- The stable sort permutes its input. -/
theorem stableSortByScore_perm (score : α → ℚ) (l : List α) :
    (stableSortByScore score l).Perm l := by
  unfold stableSortByScore
  have h := (sortByKey_perm (stableKey score) l.enum).map (fun p => p.2)
  simpa using h

/-- `hybridSearch` with its let bindings expanded. -/
theorem hybridSearch_eq (sqrt : ℚ → ℚ) (embed : Str → List ℚ) (s : Store)
    (query : Str) (topK : ℕ) :
    hybridSearch sqrt embed s query topK =
      if s.chunks.length = 0 then []
      else (stableSortByScore (fun r => r.score)
        (s.chunks.map (scoreChunkWith sqrt (embed (query.take 512))
          (extractKeywords query)))).take topK := rfl

/-- Membership in a hybrid-search result comes from scoring some stored
chunk. -/
theorem hybridSearch_mem (sqrt : ℚ → ℚ) (embed : Str → List ℚ) (s : Store)
    (query : Str) (topK : ℕ) (r : ScoredChunk)
    (hr : r ∈ hybridSearch sqrt embed s query topK) :
    ∃ c ∈ s.chunks, r = scoreChunkWith sqrt (embed (query.take 512))
      (extractKeywords query) c := by
  rw [hybridSearch_eq] at hr
  by_cases h0 : s.chunks.length = 0
  · rw [if_pos h0] at hr
    simp at hr
  · rw [if_neg h0] at hr
    have hr2 : r ∈ stableSortByScore (fun r => r.score)
        (s.chunks.map (scoreChunkWith sqrt (embed (query.take 512))
          (extractKeywords query))) := List.mem_of_mem_take hr
    have hr3 : r ∈ s.chunks.map (scoreChunkWith sqrt (embed (query.take 512))
        (extractKeywords query)) := (stableSortByScore_perm _ _).mem_iff.mp hr2
    obtain ⟨c, hc, hceq⟩ := List.mem_map.mp hr3
    exact ⟨c, hc, hceq.symm⟩

/-- C4 (amended): with unit-norm embeddings of matching dimension and
`sqrt 1 = 1`, every returned result has `vector_score ∈ [-1, 1]`,
`keyword_score ∈ [0, 1]`, a raw `phrase_boost` field in `[0, 0.35]` whose
contribution to the combined score is clamped into `[0, 0.15]`, and
`score ∈ [-0.6, 1]`. -/
theorem hybridSearch_bounds_c4 (sqrt : ℚ → ℚ) (embed : Str → List ℚ) (s : Store)
    (query : Str) (topK : ℕ)
    (hs : sqrt 1 = 1)
    (hq : normSq (embed (query.take 512)) = 1)
    (hc : ∀ c ∈ s.chunks, normSq c.embedding = 1 ∧
      c.embedding.length = (embed (query.take 512)).length) :
    ∀ r ∈ hybridSearch sqrt embed s query topK,
      (-1 ≤ r.vectorScore ∧ r.vectorScore ≤ 1) ∧
      (0 ≤ r.keywordScore ∧ r.keywordScore ≤ 1) ∧
      (0 ≤ r.phraseBoost ∧ r.phraseBoost ≤ 0.35) ∧
      (0 ≤ min r.phraseBoost 0.15 ∧ min r.phraseBoost 0.15 ≤ 0.15) ∧
      (-(0.6) ≤ r.score ∧ r.score ≤ 1) := by
  intro r hr
  obtain ⟨c, hcmem, rfl⟩ := hybridSearch_mem sqrt embed s query topK r hr
  obtain ⟨hnorm, hlen⟩ := hc c hcmem
  have htake : c.embedding.take (embed (query.take 512)).length = c.embedding := by
    rw [← hlen]
    exact List.take_length c.embedding
  have hvec := cosineSimilarity_bounds sqrt (embed (query.take 512)) c.embedding hs hq
    (by rw [htake]; exact hnorm)
  have hkw := keywordMatch_bounds (extractKeywords query) c.keywords
  have hpb := phraseBoostOf_bounds (extractKeywords query) (toLowerStr c.content)
  have hmin0 : (0 : ℚ) ≤ min (phraseBoostOf (extractKeywords query)
      (toLowerStr c.content)) 0.15 := le_min hpb.1 (by norm_num)
  have hmin1 : min (phraseBoostOf (extractKeywords query)
      (toLowerStr c.content)) 0.15 ≤ (0.15 : ℚ) := min_le_right _ _
  simp only [scoreChunkWith]
  refine ⟨hvec, hkw, hpb, ⟨hmin0, hmin1⟩, ?_, ?_⟩
  · nlinarith [hvec.1, hkw.1, hmin0]
  · nlinarith [hvec.2, hkw.2, hmin1]

/-- A chunk equal to the query text, matching all five keywords and the
two-word phrase. -/
def c4chunk : StoredChunk :=
  ⟨"e-chunk-0".data, "alpha bravo charlie delta echo".data, ⟨"e".data, 0, 0, 30⟩,
   "d4".data, [1], extractKeywords ("alpha bravo charlie delta echo".data)⟩

/-- A one-chunk store for the C4 counterexample and witness. -/
def c4store : Store := ⟨[("d4".data, ⟨"d4".data, "e".data, 1⟩)], [c4chunk]⟩

/-- The scored result of `c4chunk` for the query equal to its content. -/
def c4scored : ScoredChunk :=
  ⟨"e-chunk-0".data, "alpha bravo charlie delta echo".data, ⟨"e".data, 0, 0, 30⟩,
   "d4".data, 1, 1, 0.35, 1⟩

unseal Rat.mul Rat.add Rat.inv Rat.sub Rat.ofScientific in
/-- Counterexample for C4 as stated: a returned result whose `phraseBoost`
field is `0.35 > 0.15` and whose `score` is `1 > 0.85`. -/
theorem hybridSearch_bounds_counterexample :
    ∃ r ∈ hybridSearch wSqrt wEmbed c4store
        ("alpha bravo charlie delta echo".data) 8,
      ¬ (r.phraseBoost ≤ 0.15 ∧ r.score ≤ 0.85) := by decide

unseal Rat.mul Rat.add Rat.inv Rat.sub Rat.ofScientific in
/-- Witness for C4: the amended bounds at a concrete result. -/
theorem hybridSearch_bounds_c4_witness :
    (-1 ≤ c4scored.vectorScore ∧ c4scored.vectorScore ≤ 1) ∧
    (0 ≤ c4scored.keywordScore ∧ c4scored.keywordScore ≤ 1) ∧
    (0 ≤ c4scored.phraseBoost ∧ c4scored.phraseBoost ≤ 0.35) ∧
    (0 ≤ min c4scored.phraseBoost 0.15 ∧ min c4scored.phraseBoost 0.15 ≤ 0.15) ∧
    (-(0.6) ≤ c4scored.score ∧ c4scored.score ≤ 1) :=
  hybridSearch_bounds_c4 wSqrt wEmbed c4store
    ("alpha bravo charlie delta echo".data) 8 (by decide) (by decide)
    (by decide) c4scored (by decide)

/-- The accumulator of `natDigitsAux` is a suffix. -/
theorem natDigitsAux_append :
    ∀ (fuel n : ℕ) (acc : Str),
      natDigitsAux fuel n acc = natDigitsAux fuel n [] ++ acc := by
  intro fuel
  induction fuel with
  | zero => intro n acc; simp [natDigitsAux]
  | succ fuel ih =>
    intro n acc
    unfold natDigitsAux
    by_cases h : n < 10
    · rw [if_pos h, if_pos h]
      rfl
    · rw [if_neg h, if_neg h]
      rw [ih (n / 10) (Char.ofNat (48 + n % 10) :: acc),
        ih (n / 10) [Char.ofNat (48 + n % 10)]]
      rw [List.append_assoc]
      rfl

/-- The character value of a decimal digit. -/
theorem digit_char_val (m : ℕ) (hm : m < 10) :
    (Char.ofNat (48 + m)).toNat - 48 = m := by
  interval_cases m <;> decide

/-- Evaluating the rendered digits recovers the number. -/
theorem strVal_natDigitsAux :
    ∀ (fuel : ℕ), ∀ n < fuel, ∀ (a : ℕ),
      (natDigitsAux fuel n []).foldl (fun x c => 10 * x + (c.toNat - 48)) a =
        a * 10 ^ (natDigitsAux fuel n []).length + n := by
  intro fuel
  induction fuel with
  | zero => intro n hn; omega
  | succ fuel ih =>
    intro n hn a
    by_cases h : n < 10
    · show ((natDigitsAux (fuel + 1) n [])).foldl _ a = _
      unfold natDigitsAux
      rw [if_pos h]
      simp only [List.foldl_cons, List.foldl_nil, List.length_cons, List.length_nil]
      rw [digit_char_val (n % 10) (Nat.mod_lt n (by omega))]
      have : n % 10 = n := Nat.mod_eq_of_lt h
      rw [this]
      ring
    · have hdiv : n / 10 < fuel := by omega
      show ((natDigitsAux (fuel + 1) n [])).foldl _ a = _
      unfold natDigitsAux
      rw [if_neg h]
      rw [natDigitsAux_append fuel (n / 10) [Char.ofNat (48 + n % 10)]]
      rw [List.foldl_append, List.length_append]
      rw [ih (n / 10) hdiv a]
      simp only [List.foldl_cons, List.foldl_nil, List.length_cons, List.length_nil]
      rw [digit_char_val (n % 10) (Nat.mod_lt n (by omega))]
      have hmod : 10 * (a * 10 ^ (natDigitsAux fuel (n / 10) []).length + n / 10) + n % 10
          = a * 10 ^ ((natDigitsAux fuel (n / 10) []).length + (0 + 1)) + n := by
        have := Nat.div_add_mod n 10
        ring_nf
        omega
      rw [hmod]

/-- `strVal` inverts `natToStr`. -/
theorem strVal_natToStr (n : ℕ) : strVal (natToStr n) = n := by
  unfold strVal natToStr
  rw [strVal_natDigitsAux (n + 1) n (Nat.lt_succ_self n) 0]
  simp

/-- Decimal rendering is injective. -/
theorem natToStr_injective : Function.Injective natToStr := by
  intro m n h
  rw [← strVal_natToStr m, ← strVal_natToStr n, h]

/-- Chunk ids of the same source with distinct indices are distinct. -/
theorem chunkId_inj_idx (source : Str) (i j : ℕ) (h : chunkId source i = chunkId source j) :
    i = j := by
  unfold chunkId at h
  have h1 := List.append_cancel_left h
  have h2 := List.append_cancel_left h1
  exact natToStr_injective h2

/-- Chunk indices produced by the chunker loop are at least the running
index. -/
theorem createChunksGo_idx_ge (dp : DPConfig) (source : Str) :
    ∀ (sents : List Str) (cur : Str) (curLen idx : ℕ),
      ∀ c ∈ createChunksGo dp source sents cur curLen idx,
        idx ≤ c.metadata.chunkIndex := by
  intro sents
  induction sents with
  | nil =>
    intro cur curLen idx c hc
    unfold createChunksGo at hc
    split_ifs at hc with h
    · simp at hc
    · simp at hc
      rw [hc]
  | cons s rest ih =>
    intro cur curLen idx c hc
    unfold createChunksGo at hc
    split_ifs at hc with h
    · rcases List.mem_cons.mp hc with hc | hc
      · rw [hc]
      · exact le_trans (Nat.le_succ idx) (ih _ _ _ c hc)
    · exact ih _ _ _ c hc

/-- Chunk indices produced by the chunker loop are strictly increasing. -/
theorem createChunksGo_idx_pairwise (dp : DPConfig) (source : Str) :
    ∀ (sents : List Str) (cur : Str) (curLen idx : ℕ),
      (createChunksGo dp source sents cur curLen idx).Pairwise
        (fun c₁ c₂ => c₁.metadata.chunkIndex < c₂.metadata.chunkIndex) := by
  intro sents
  induction sents with
  | nil =>
    intro cur curLen idx
    unfold createChunksGo
    split_ifs <;> simp
  | cons s rest ih =>
    intro cur curLen idx
    unfold createChunksGo
    split_ifs with h
    · refine List.Pairwise.cons ?_ (ih _ _ _)
      intro c hc
      have := createChunksGo_idx_ge dp source rest _ _ (idx + 1) c hc
      simpa using lt_of_lt_of_le (Nat.lt_succ_self idx) this
    · exact ih _ _ _

/-- Every chunk from the chunker loop carries its own index in its id and the
source name in its metadata. -/
theorem createChunksGo_id (dp : DPConfig) (source : Str) :
    ∀ (sents : List Str) (cur : Str) (curLen idx : ℕ),
      ∀ c ∈ createChunksGo dp source sents cur curLen idx,
        c.id = chunkId source c.metadata.chunkIndex ∧ c.metadata.source = source := by
  intro sents
  induction sents with
  | nil =>
    intro cur curLen idx c hc
    unfold createChunksGo at hc
    split_ifs at hc with h
    · simp at hc
    · simp at hc
      rw [hc]
      exact ⟨rfl, rfl⟩
  | cons s rest ih =>
    intro cur curLen idx c hc
    unfold createChunksGo at hc
    split_ifs at hc with h
    · rcases List.mem_cons.mp hc with hc | hc
      · rw [hc]
        exact ⟨rfl, rfl⟩
      · exact ih _ _ _ c hc
    · exact ih _ _ _ c hc

/-- Chunks produced by one `createChunks` run have pairwise-distinct ids. -/
theorem createChunks_ids_pairwise (dp : DPConfig) (text source : Str) :
    (createChunks dp text source).Pairwise (fun c₁ c₂ => c₁.id ≠ c₂.id) := by
  unfold createChunks
  have hidx := createChunksGo_idx_pairwise dp source (splitIntoSentences text) [] 0 0
  refine hidx.imp_of_mem ?_
  intro c₁ c₂ h₁ h₂ hlt
  obtain ⟨hid₁, _⟩ := createChunksGo_id dp source (splitIntoSentences text) [] 0 0 c₁ h₁
  obtain ⟨hid₂, _⟩ := createChunksGo_id dp source (splitIntoSentences text) [] 0 0 c₂ h₂
  intro heq
  rw [hid₁, hid₂] at heq
  exact absurd (chunkId_inj_idx source _ _ heq) (Nat.ne_of_lt hlt)

/-- Every key of a map survives `Map.set` (possibly with a new value). -/
theorem mapSet_preserves_keys (m : List (Str × DocInfo)) (k : Str) (v : DocInfo) :
    ∀ e ∈ m, ∃ e' ∈ mapSet m k v, e'.1 = e.1 := by
  intro e he
  unfold mapSet
  by_cases h : m.any (fun x => x.1 = k) = true
  · rw [if_pos h]
    by_cases hek : e.1 = k
    · exact ⟨(k, v), List.mem_map.mpr ⟨e, he, by rw [if_pos hek]⟩, hek.symm⟩
    · exact ⟨e, List.mem_map.mpr ⟨e, he, by rw [if_neg hek]⟩, rfl⟩
  · rw [if_neg h]
    exact ⟨e, List.mem_append.mpr (Or.inl he), rfl⟩

/-- The key set by `Map.set` is present afterwards. -/
theorem mapSet_self_mem (m : List (Str × DocInfo)) (k : Str) (v : DocInfo) :
    ∃ e ∈ mapSet m k v, e.1 = k :=
  ⟨(k, v), List.mem_of_find?_eq_some (find?_mapSet_self m k v), rfl⟩

/-- C5 (amended): in every reachable store, two distinct chunks of the same
document have distinct ids (ids are derived as `<source-name>-chunk-<index>`
with per-document strictly increasing indices; across documents ids collide
whenever clients upload the same source name twice — see the
counterexample). -/
theorem reachable_chunk_ids_c5 (embed : Str → List ℚ) (s : Store)
    (h : Reachable embed s) :
    s.chunks.Pairwise (fun c₁ c₂ => c₁.docId = c₂.docId → c₁.id ≠ c₂.id) := by
  induction h with
  | empty => simp [emptyStore]
  | add s docId name text hreach hdocs hchunks ih =>
    have hsplit : (addDocument embed s docId name
        (createChunks defaultDP text name)).chunks
        = s.chunks ++ (createChunks defaultDP text name).map (fun c =>
            ⟨c.id, c.content, c.metadata, docId, embed (c.content.take 512),
             extractKeywords c.content⟩) := rfl
    rw [hsplit, List.pairwise_append]
    refine ⟨ih, ?_, ?_⟩
    · rw [List.pairwise_map]
      refine (createChunks_ids_pairwise defaultDP text name).imp ?_
      intro c₁ c₂ hne _
      exact hne
    · intro c₁ h₁ c₂ h₂ hdoc
      obtain ⟨rc, _, rfl⟩ := List.mem_map.mp h₂
      exact absurd hdoc (hchunks c₁ h₁)
  | remove s s' docId hreach hok ih =>
    by_cases hhas : mapHas s.documents docId = true
    · have hred : removeDocument s docId = Except.ok
          { documents := s.documents.filter (fun e => ¬ e.1 = docId),
            chunks := s.chunks.filter (fun c => ¬ c.docId = docId) } := by
        simp [removeDocument, hhas]
      rw [hred] at hok
      have hs' := Except.ok.inj hok
      rw [← hs']
      exact List.Pairwise.sublist (List.filter_sublist _) ih
    · have hred : removeDocument s docId = Except.error "Document not found" := by
        simp [removeDocument, hhas]
      rw [hred] at hok
      cases hok
  | clear s hreach ih => simp [clearStore]

/-- C8 (amended): in every reachable store, every chunk's owning document is
present in the registry.  (The converse fails: a document added with an empty
chunk list owns no chunk — see the counterexample.) -/
theorem reachable_chunk_owner_c8 (embed : Str → List ℚ) (s : Store)
    (h : Reachable embed s) :
    ∀ c ∈ s.chunks, ∃ e ∈ s.documents, e.1 = c.docId := by
  induction h with
  | empty => simp [emptyStore]
  | add s docId name text hreach hdocs hchunks ih =>
    intro c hc
    have hsplit : (addDocument embed s docId name
        (createChunks defaultDP text name)).chunks
        = s.chunks ++ (createChunks defaultDP text name).map (fun c =>
            ⟨c.id, c.content, c.metadata, docId, embed (c.content.take 512),
             extractKeywords c.content⟩) := rfl
    have hdocsplit : (addDocument embed s docId name
        (createChunks defaultDP text name)).documents
        = mapSet s.documents docId ⟨docId, name,
            ((createChunks defaultDP text name).map (fun c =>
              (⟨c.id, c.content, c.metadata, docId, embed (c.content.take 512),
               extractKeywords c.content⟩ : StoredChunk))).length⟩ := rfl
    rw [hsplit] at hc
    rw [hdocsplit]
    rcases List.mem_append.mp hc with hold | hnew
    · obtain ⟨e, he, heq⟩ := ih c hold
      obtain ⟨e', he', heq'⟩ := mapSet_preserves_keys s.documents docId _ e he
      exact ⟨e', he', heq'.trans heq⟩
    · obtain ⟨rc, _, rfl⟩ := List.mem_map.mp hnew
      obtain ⟨e', he', heq'⟩ := mapSet_self_mem s.documents docId _
      exact ⟨e', he', heq'⟩
  | remove s s' docId hreach hok ih =>
    intro c hc
    by_cases hhas : mapHas s.documents docId = true
    case neg =>
      have hred : removeDocument s docId = Except.error "Document not found" := by
        simp [removeDocument, hhas]
      rw [hred] at hok
      cases hok
    case pos =>
      have hred : removeDocument s docId = Except.ok
          { documents := s.documents.filter (fun e => ¬ e.1 = docId),
            chunks := s.chunks.filter (fun c => ¬ c.docId = docId) } := by
        simp [removeDocument, hhas]
      rw [hred] at hok
      have hs' := Except.ok.inj hok
      rw [← hs'] at hc ⊢
      obtain ⟨hcs, hne⟩ := List.mem_filter.mp hc
      obtain ⟨e, he, heq⟩ := ih c hcs
      refine ⟨e, List.mem_filter.mpr ⟨he, ?_⟩, heq⟩
      have : ¬ c.docId = docId := by simpa using hne
      simp [heq, this]
  | clear s hreach ih => simp [clearStore]

/-- The store after uploading the same file name twice (fresh document ids,
as the server generates). -/
def c5state : Store :=
  addDocument wEmbed
    (addDocument wEmbed emptyStore ("d1".data) ("a.txt".data)
      (createChunks defaultDP ("hello world.".data) ("a.txt".data)))
    ("d2".data) ("a.txt".data)
    (createChunks defaultDP ("hello world.".data) ("a.txt".data))

/-- `c5state` is reachable. -/
theorem c5state_reachable : Reachable wEmbed c5state :=
  Reachable.add _ _ _ _
    (Reachable.add _ _ _ _ Reachable.empty (by decide) (by decide))
    (by decide) (by decide)

/-- Counterexample for C5 as stated: after uploading `a.txt` twice, two
distinct chunks in the index share the id `a.txt-chunk-0`. -/
theorem c5_counterexample :
    ¬ (∀ (embed : Str → List ℚ) (s : Store), Reachable embed s →
        s.chunks.Pairwise (fun c₁ c₂ => c₁ ≠ c₂ → c₁.id ≠ c₂.id)) := by
  intro h
  have hp := h wEmbed c5state c5state_reachable
  exact absurd hp (by decide)

/-- Witness for C5 (amended) at the concrete reachable state. -/
theorem reachable_chunk_ids_c5_witness :
    c5state.chunks.Pairwise (fun c₁ c₂ => c₁.docId = c₂.docId → c₁.id ≠ c₂.id) :=
  reachable_chunk_ids_c5 wEmbed c5state c5state_reachable

/-- The store after adding a document whose extraction yields no chunks. -/
def c8state : Store :=
  addDocument wEmbed emptyStore ("d1".data) ("empty.txt".data)
    (createChunks defaultDP ("".data) ("empty.txt".data))

/-- `c8state` is reachable. -/
theorem c8state_reachable : Reachable wEmbed c8state :=
  Reachable.add _ _ _ _ Reachable.empty (by decide) (by decide)

/-- Counterexample for C8 as stated: after adding a document with an empty
chunk list, the registry holds a document owning no chunk in the index. -/
theorem c8_counterexample :
    ¬ (∀ (embed : Str → List ℚ) (s : Store), Reachable embed s →
        ((∀ c ∈ s.chunks, ∃ e ∈ s.documents, e.1 = c.docId) ∧
         (∀ e ∈ s.documents, ∃ c ∈ s.chunks, c.docId = e.1))) := by
  intro h
  have h2 := (h wEmbed c8state c8state_reachable).2
  have h3 := h2 (("d1".data, ⟨"d1".data, "empty.txt".data, 0⟩)) (by decide)
  obtain ⟨c, hc, _⟩ := h3
  have hnil : c8state.chunks = [] := by decide
  rw [hnil] at hc
  exact absurd hc (List.not_mem_nil c)

/-- The first chunk of `c5state`. -/
def c8wchunk : StoredChunk :=
  ⟨"a.txt-chunk-0".data, "hello world.".data, ⟨"a.txt".data, 0, 0, 13⟩,
   "d1".data, [1], extractKeywords ("hello world.".data)⟩

/-- Witness for C8 (amended): the owner of a concrete chunk of a concrete
reachable state is registered. -/
theorem reachable_chunk_owner_c8_witness :
    ∃ e ∈ c5state.documents, e.1 = c8wchunk.docId :=
  reachable_chunk_owner_c8 wEmbed c5state c5state_reachable c8wchunk (by decide)

/-- Characterization of the stable descending sort: the output is the image
of an index-paired permutation that is sorted by descending score and, on
score ties, by ascending original index. -/
theorem stableSortByScore_spec (score : α → ℚ) (l : List α) :
    ∃ perm : List (ℕ × α),
      perm.Perm l.enum ∧
      perm.Pairwise (fun x y => score y.2 ≤ score x.2) ∧
      perm.Pairwise (fun x y => score x.2 = score y.2 → x.1 < y.1) ∧
      stableSortByScore score l = perm.map (·.2) := by
  have hsorted := sortByKey_sorted (stableKey score) l.enum
  have hperm := sortByKey_perm (stableKey score) l.enum
  have hfstnd : (l.enum.map Prod.fst).Nodup := by
    refine List.pairwise_map.mpr ?_
    exact (pairwise_fst_enum l).imp (fun h => Nat.ne_of_lt h)
  have hnd2 : ((sortByKey (stableKey score) l.enum).map Prod.fst).Nodup :=
    ((hperm.map Prod.fst).nodup_iff).mpr hfstnd
  have hfstpair : (sortByKey (stableKey score) l.enum).Pairwise
      (fun x y => x.1 ≠ y.1) := List.pairwise_map.mp hnd2
  refine ⟨sortByKey (stableKey score) l.enum, hperm, ?_, ?_, rfl⟩
  · refine hsorted.imp ?_
    intro x y h
    rcases h with hlt | ⟨heq, _⟩
    · exact le_of_lt (by exact neg_lt_neg_iff.mp hlt)
    · exact le_of_eq (neg_inj.mp heq).symm
  · refine (hsorted.and hfstpair).imp ?_
    intro x y ⟨hk, hne⟩ hscore
    rcases hk with hlt | ⟨_, hinner⟩
    · exfalso
      rw [show stableKey score x = (-(score x.2), (x.1 : ℚ), 0, 0) from rfl,
        show stableKey score y = (-(score y.2), (y.1 : ℚ), 0, 0) from rfl] at hlt
      simp only at hlt
      rw [hscore] at hlt
      exact lt_irrefl _ hlt
    · rcases hinner with hlt2 | ⟨heq2, _⟩
      · have h' : ((x.1 : ℚ)) < ((y.1 : ℚ)) := hlt2
        exact_mod_cast h'
      · have h' : ((x.1 : ℚ)) = ((y.1 : ℚ)) := heq2
        exact absurd (by exact_mod_cast h') hne

/-- The word loop of the phrase boost counts occurring important words. -/
theorem boost_foldl_eq (cl : Str) :
    ∀ (ws : List Str) (init : ℚ),
      ws.foldl (fun acc word => if strIncludes word cl then acc + 0.05 else acc) init
        = init + 0.05 * (ws.filter (fun w => strIncludes w cl)).length := by
  intro ws
  induction ws with
  | nil => intro init; simp
  | cons w ws ih =>
    intro init
    rw [List.foldl_cons, List.filter_cons]
    by_cases h : strIncludes w cl
    · rw [if_pos h, if_pos (by simpa using h), ih]
      simp only [List.length_cons]
      push_cast
      ring
    · rw [if_neg h, if_neg (by simpa using h), ih]

/-- The phrase boost in closed form: `0.05` per occurring important word plus
`0.1` for the two-word phrase. -/
theorem phraseBoostOf_eq (qk : List Str) (cl : Str) :
    phraseBoostOf qk cl
      = 0.05 * (((qk.take 5).filter (fun w => strIncludes w cl)).length : ℚ)
        + (if 2 ≤ (qk.take 5).length ∧
              strIncludes (joinSpace ((qk.take 5).take 2)) cl = true
           then 0.1 else 0) := by
  simp only [phraseBoostOf]
  rw [boost_foldl_eq cl (qk.take 5) 0, zero_add]
  by_cases h2 : 2 ≤ (qk.take 5).length
  · rw [if_pos h2]
    by_cases hph : strIncludes (joinSpace ((qk.take 5).take 2)) cl
    · rw [if_pos hph, if_pos ⟨h2, hph⟩]
    · rw [if_neg hph, if_neg (fun hc => hph hc.2), add_zero]
  · rw [if_neg h2, if_neg (fun hc => h2 hc.1), add_zero]

/-- The combined score written out (definitional). -/
theorem scoreChunkWith_score_eq (sqrt : ℚ → ℚ) (qe : List ℚ) (qk : List Str)
    (c : StoredChunk) :
    (scoreChunkWith sqrt qe qk c).score
      = cosineSimilarity sqrt qe c.embedding * 0.6
        + ((qk.filter (fun kw => c.keywords.contains kw)).length : ℚ)
          / ((max qk.length 1 : ℕ) : ℚ) * 0.25
        + min (phraseBoostOf qk (toLowerStr c.content)) 0.15 := rfl

/-- The returned phrase-boost field (definitional). -/
theorem scoreChunkWith_phraseBoost_eq (sqrt : ℚ → ℚ) (qe : List ℚ) (qk : List Str)
    (c : StoredChunk) :
    (scoreChunkWith sqrt qe qk c).phraseBoost
      = phraseBoostOf qk (toLowerStr c.content) := rfl

/-- C1: `hybridSearch` scores every chunk by the weighted hybrid formula
(60% vector, 25% keyword overlap, phrase boost clamped to 0.15), sorts by
descending score with ties broken by original insertion order (the JS sort is
stable), and returns the first `k`. -/
theorem hybridSearch_c1 (sqrt : ℚ → ℚ) (embed : Str → List ℚ) (s : Store)
    (query : Str) (k : ℕ) :
    ∃ perm : List (ℕ × ScoredChunk),
      perm.Perm (s.chunks.map (scoreChunkWith sqrt (embed (query.take 512))
        (extractKeywords query))).enum ∧
      perm.Pairwise (fun x y => y.2.score ≤ x.2.score) ∧
      perm.Pairwise (fun x y => x.2.score = y.2.score → x.1 < y.1) ∧
      hybridSearch sqrt embed s query k = (perm.map (·.2)).take k ∧
      (∀ c ∈ s.chunks,
        (scoreChunkWith sqrt (embed (query.take 512)) (extractKeywords query) c).score
          = cosineSimilarity sqrt (embed (query.take 512)) c.embedding * 0.6
            + (((extractKeywords query).filter
                 (fun kw => c.keywords.contains kw)).length : ℚ)
              / ((max (extractKeywords query).length 1 : ℕ) : ℚ) * 0.25
            + min (phraseBoostOf (extractKeywords query) (toLowerStr c.content)) 0.15 ∧
        (scoreChunkWith sqrt (embed (query.take 512)) (extractKeywords query) c).phraseBoost
          = 0.05 * ((((extractKeywords query).take 5).filter
                (fun w => strIncludes w (toLowerStr c.content))).length : ℚ)
            + (if 2 ≤ ((extractKeywords query).take 5).length ∧
                  strIncludes (joinSpace (((extractKeywords query).take 5).take 2))
                    (toLowerStr c.content) = true
               then 0.1 else 0)) := by
  have hformula : ∀ c ∈ s.chunks,
      (scoreChunkWith sqrt (embed (query.take 512)) (extractKeywords query) c).score
        = cosineSimilarity sqrt (embed (query.take 512)) c.embedding * 0.6
          + (((extractKeywords query).filter
               (fun kw => c.keywords.contains kw)).length : ℚ)
            / ((max (extractKeywords query).length 1 : ℕ) : ℚ) * 0.25
          + min (phraseBoostOf (extractKeywords query) (toLowerStr c.content)) 0.15 ∧
      (scoreChunkWith sqrt (embed (query.take 512)) (extractKeywords query) c).phraseBoost
        = 0.05 * ((((extractKeywords query).take 5).filter
              (fun w => strIncludes w (toLowerStr c.content))).length : ℚ)
          + (if 2 ≤ ((extractKeywords query).take 5).length ∧
                strIncludes (joinSpace (((extractKeywords query).take 5).take 2))
                  (toLowerStr c.content) = true
             then 0.1 else 0) := by
    intro c _
    exact ⟨scoreChunkWith_score_eq sqrt (embed (query.take 512))
        (extractKeywords query) c,
      (scoreChunkWith_phraseBoost_eq sqrt (embed (query.take 512))
        (extractKeywords query) c).trans
        (phraseBoostOf_eq (extractKeywords query) (toLowerStr c.content))⟩
  by_cases h0 : s.chunks.length = 0
  · have hnil : s.chunks = [] := List.length_eq_zero.mp h0
    refine ⟨[], ?_, ?_, ?_, ?_, hformula⟩
    · rw [hnil]; simp
    · simp
    · simp
    · rw [hybridSearch_eq, if_pos h0]; simp
  · obtain ⟨perm, hperm, hsort, hstab, heq⟩ := stableSortByScore_spec
      (fun r : ScoredChunk => r.score)
      (s.chunks.map (scoreChunkWith sqrt (embed (query.take 512))
        (extractKeywords query)))
    refine ⟨perm, hperm, hsort, hstab, ?_, hformula⟩
    rw [hybridSearch_eq, if_neg h0, heq]

/-- `firstDedupGo` only depends on the membership of `seen`. -/
theorem firstDedupGo_congr :
    ∀ (ws : List Str) (s₁ s₂ : List Str), (∀ x, x ∈ s₁ ↔ x ∈ s₂) →
      firstDedupGo s₁ ws = firstDedupGo s₂ ws := by
  intro ws
  induction ws with
  | nil => intro s₁ s₂ _; rfl
  | cons w ws ih =>
    intro s₁ s₂ hiff
    unfold firstDedupGo
    by_cases h : w ∈ s₁
    · rw [if_pos h, if_pos ((hiff w).mp h)]
      exact ih s₁ s₂ hiff
    · rw [if_neg h, if_neg (fun hc => h ((hiff w).mpr hc))]
      rw [ih (w :: s₁) (w :: s₂) (fun x => by simp [hiff x])]

/-- Elements of `firstDedupGo seen ws` avoid `seen`, and the result has no
duplicates. -/
theorem firstDedupGo_spec :
    ∀ (ws seen : List Str),
      (∀ x ∈ firstDedupGo seen ws, x ∉ seen) ∧ (firstDedupGo seen ws).Nodup := by
  intro ws
  induction ws with
  | nil => intro seen; simp [firstDedupGo]
  | cons w ws ih =>
    intro seen
    unfold firstDedupGo
    by_cases h : w ∈ seen
    · rw [if_pos h]
      exact ih seen
    · rw [if_neg h]
      obtain ⟨hmem, hnd⟩ := ih (w :: seen)
      refine ⟨?_, ?_⟩
      · intro x hx
        rcases List.mem_cons.mp hx with rfl | hx'
        · exact h
        · exact fun hc => hmem x hx' (List.mem_cons_of_mem w hc)
      · refine List.nodup_cons.mpr ⟨?_, hnd⟩
        intro hc
        exact hmem w hc (List.mem_cons_self w seen)

/-- `firstDedup` has no duplicates. -/
theorem firstDedup_nodup (l : List Str) : (firstDedup l).Nodup :=
  (firstDedupGo_spec l []).2

/-- The count stored in a JS-object model under a key. -/
def getCount (acc : List (Str × ℕ)) (w : Str) : ℕ :=
  ((acc.find? (fun e => e.1 = w)).map

    (fun e => e.2)).getD 0

/-- `bumpFreqN` keeps the key list, or appends the new key. -/
theorem bumpFreqN_keys (acc : List (Str × ℕ)) (w : Str) :
    (bumpFreqN acc w).map Prod.fst =
      if acc.any (fun e => e.1 = w) then acc.map Prod.fst
      else acc.map Prod.fst ++ [w] := by
  unfold bumpFreqN
  by_cases h : acc.any (fun e => e.1 = w)
  · rw [if_pos h, if_pos h, List.map_map]
    refine List.map_congr_left ?_
    intro e _
    by_cases he : e.1 = w
    · simp [he]
    · simp [he]
  · rw [if_neg h, if_neg h]
    simp

/-- Key membership versus the `any` test. -/
theorem any_key_iff (acc : List (Str × ℕ)) (w : Str) :
    acc.any (fun e => e.1 = w) = true ↔ w ∈ acc.map Prod.fst := by
  rw [List.any_eq_true]
  constructor
  · rintro ⟨e, he, hpe⟩
    exact List.mem_map.mpr ⟨e, he, (of_decide_eq_true hpe)⟩
  · rintro h
    obtain ⟨e, he, hpe⟩ := List.mem_map.mp h
    exact ⟨e, he, decide_eq_true hpe⟩

/-- Updating the count of `w` bumps the first matching entry. -/
theorem find?_map_bump (w : Str) :
    ∀ (acc : List (Str × ℕ)),
      (acc.map (fun e => if e.1 = w then (e.1, e.2 + 1) else e)).find?
          (fun e => e.1 = w)
        = (acc.find? (fun e => e.1 = w)).map (fun e => (e.1, e.2 + 1)) := by
  intro acc
  induction acc with
  | nil => rfl
  | cons hd t ih =>
    by_cases hh : hd.1 = w
    · rw [List.map_cons, if_pos hh]
      rw [List.find?_cons_of_pos _ (by simpa using hh),
        List.find?_cons_of_pos _ (by simpa using hh)]
      simp [hh]
    · rw [List.map_cons, if_neg hh]
      rw [List.find?_cons_of_neg _ (by simpa using hh),
        List.find?_cons_of_neg _ (by simpa using hh)]
      exact ih

/-- Looking up a different key ignores the bump of `w`. -/
theorem find?_map_bump_other (w x : Str) (hx : ¬ x = w) :
    ∀ (acc : List (Str × ℕ)),
      (acc.map (fun e => if e.1 = w then (e.1, e.2 + 1) else e)).find?
          (fun e => e.1 = x)
        = acc.find? (fun e => e.1 = x) := by
  intro acc
  induction acc with
  | nil => rfl
  | cons hd t ih =>
    by_cases hh : hd.1 = x
    · rw [List.map_cons]
      have hw : ¬ hd.1 = w := by rw [hh]; exact hx
      rw [if_neg hw]
      rw [List.find?_cons_of_pos _ (by simpa using hh),
        List.find?_cons_of_pos _ (by simpa using hh)]
    · rw [List.map_cons]
      by_cases hw : hd.1 = w
      · rw [if_pos hw]
        rw [List.find?_cons_of_neg _ (by simpa using hh),
          List.find?_cons_of_neg _ (by simpa [hw] using hh)]
        exact ih
      · rw [if_neg hw]
        rw [List.find?_cons_of_neg _ (by simpa using hh),
          List.find?_cons_of_neg _ (by simpa using hh)]
        exact ih

/-- `bumpFreqN` increments the count of its key. -/
theorem getCount_bumpFreqN_self (acc : List (Str × ℕ)) (w : Str) :
    getCount (bumpFreqN acc w) w = getCount acc w + 1 := by
  unfold bumpFreqN getCount
  by_cases h : acc.any (fun e => e.1 = w)
  · rw [if_pos h, find?_map_bump w acc]
    obtain ⟨e, he, hpe⟩ := List.any_eq_true.mp h
    cases hfind : acc.find? (fun e => e.1 = w) with
    | none =>
      rw [List.find?_eq_none] at hfind
      exact absurd hpe (hfind e he)
    | some e' => simp
  · rw [if_neg h]
    have hnone : acc.find? (fun e => e.1 = w) = none := by
      rw [List.find?_eq_none]
      intro x hx hpx
      exact h (List.any_eq_true.mpr ⟨x, hx, hpx⟩)
    rw [List.find?_append, hnone]
    simp

/-- `bumpFreqN` leaves other counts unchanged. -/
theorem getCount_bumpFreqN_other (acc : List (Str × ℕ)) (w x : Str) (hx : ¬ x = w) :
    getCount (bumpFreqN acc w) x = getCount acc x := by
  unfold bumpFreqN getCount
  by_cases h : acc.any (fun e => e.1 = w)
  · rw [if_pos h, find?_map_bump_other w x hx acc]
  · rw [if_neg h, List.find?_append]
    have : ([((w, 1) : Str × ℕ)].find? (fun e => e.1 = x)) = none := by
      rw [List.find?_eq_none]
      intro y hy hpy
      rcases List.mem_cons.mp hy with rfl | hy'
      · exact hx (of_decide_eq_true hpy).symm
      · simp at hy'
    rw [this]
    cases acc.find? (fun e => e.1 = x) <;> rfl

/-- Unfolding equation of `firstDedupGo` on a cons. -/
theorem firstDedupGo_cons (seen : List Str) (w : Str) (ws : List Str) :
    firstDedupGo seen (w :: ws)
      = if w ∈ seen then firstDedupGo seen ws
        else w :: firstDedupGo (w :: seen) ws := rfl

/-- The folded object counts occurrences. -/
theorem freqGo_count :
    ∀ (ws : List Str) (acc : List (Str × ℕ)) (x : Str),
      getCount (List.foldl bumpFreqN acc ws) x = getCount acc x + ws.count x := by
  intro ws
  induction ws with
  | nil => intro acc x; simp
  | cons w ws ih =>
    intro acc x
    rw [List.foldl_cons, ih (bumpFreqN acc w) x, List.count_cons]
    by_cases hxw : x = w
    · subst hxw
      rw [getCount_bumpFreqN_self acc x]
      simp
      omega
    · have hwx : ¬ w = x := fun hc => hxw hc.symm
      rw [getCount_bumpFreqN_other acc w x hxw]
      simp [hwx]

/-- The key list of the folded object extends by first appearances. -/
theorem freqGo_keys :
    ∀ (ws : List Str) (acc : List (Str × ℕ)),
      (List.foldl bumpFreqN acc ws).map Prod.fst
        = acc.map Prod.fst ++ firstDedupGo (acc.map Prod.fst) ws := by
  intro ws
  induction ws with
  | nil => intro acc; simp [firstDedupGo]
  | cons w ws ih =>
    intro acc
    rw [List.foldl_cons, ih (bumpFreqN acc w)]
    rw [bumpFreqN_keys acc w]
    by_cases h : acc.any (fun e => e.1 = w)
    · rw [if_pos h]
      have hw : w ∈ acc.map Prod.fst := (any_key_iff acc w).mp h
      rw [firstDedupGo_cons, if_pos hw]
    · rw [if_neg h]
      have hw : w ∉ acc.map Prod.fst := fun hc => h ((any_key_iff acc w).mpr hc)
      rw [firstDedupGo_cons, if_neg hw]
      rw [firstDedupGo_congr ws (acc.map Prod.fst ++ [w]) (w :: acc.map Prod.fst)
        (fun x => by simp [or_comm])]
      rw [List.append_assoc]
      rfl

/-- The folded object has no duplicate keys. -/
theorem freqGo_keys_nodup (ws : List Str) (acc : List (Str × ℕ))
    (h : (acc.map Prod.fst).Nodup) :
    ((List.foldl bumpFreqN acc ws).map Prod.fst).Nodup := by
  rw [freqGo_keys ws acc]
  rw [List.nodup_append]
  refine ⟨h, (firstDedupGo_spec ws (acc.map Prod.fst)).2, ?_⟩
  intro x hx hx2
  exact (firstDedupGo_spec ws (acc.map Prod.fst)).1 x hx2 hx

/-- In a map with distinct keys, lookup at a member's key finds the member. -/
theorem find?_eq_of_mem_nodup :
    ∀ (l : List (Str × ℕ)), (l.map Prod.fst).Nodup → ∀ e ∈ l,
      l.find? (fun x => x.1 = e.1) = some e := by
  intro l
  induction l with
  | nil => intro _ e he; simp at he
  | cons hd t ih =>
    intro hnd e he
    rcases List.mem_cons.mp he with rfl | he'
    · rw [List.find?_cons_of_pos _ (by simp)]
    · have hne : ¬ hd.1 = e.1 := by
        intro hc
        have : hd.1 ∈ t.map Prod.fst := by
          rw [hc]; exact List.mem_map_of_mem _ he'
        exact (List.nodup_cons.mp (by simpa using hnd)).1 this
      rw [List.find?_cons_of_neg _ (by simpa using hne)]
      exact ih (List.nodup_cons.mp (by simpa using hnd)).2 e he'

/-- `freqFoldN`: the keys are the distinct tokens in first-appearance order. -/
theorem freqFoldN_keys (toks : List Str) :
    (freqFoldN toks).map Prod.fst = firstDedup toks := by
  unfold freqFoldN firstDedup
  rw [freqGo_keys toks []]
  rfl

/-- `freqFoldN`: keys are distinct. -/
theorem freqFoldN_keys_nodup (toks : List Str) :
    ((freqFoldN toks).map Prod.fst).Nodup := by
  rw [freqFoldN_keys]
  exact firstDedup_nodup toks

/-- `freqFoldN`: every entry stores the token's occurrence count. -/
theorem freqFoldN_counts (toks : List Str) :
    ∀ e ∈ freqFoldN toks, e.2 = toks.count e.1 := by
  intro e he
  have h1 : getCount (freqFoldN toks) e.1 = toks.count e.1 := by
    unfold freqFoldN
    rw [freqGo_count toks [] e.1]
    simp [getCount]
  have h2 : getCount (freqFoldN toks) e.1 = e.2 := by
    unfold getCount
    rw [find?_eq_of_mem_nodup (freqFoldN toks) (freqFoldN_keys_nodup toks) e he]
    rfl
  rw [← h2, h1]

/-- The tie-break part of the amended key (group, numeric value, rank). -/
def tailKey (uniq : List Str) (w : Str) : Key4 :=
  (if isArrayIndexStr w then 0 else 1,
   if isArrayIndexStr w then (strVal w : ℚ) else 0,
   (idxOf w uniq : ℚ), 0)

/-- Prepending an equal head component to a lexicographic comparison. -/
theorem lex4_shift (a g v r g' v' r' : ℚ)
    (h : lex4LE (g, v, r, 0) (g', v', r', 0)) :
    lex4LE (a, g, v, r) (a, g', v', r') := by
  rcases h with h1 | ⟨e1, h2⟩
  · exact Or.inr ⟨rfl, Or.inl h1⟩
  · rcases h2 with h2 | ⟨e2, h3⟩
    · exact Or.inr ⟨rfl, Or.inr ⟨e1, Or.inl h2⟩⟩
    · rcases h3 with h3 | ⟨e3, _⟩
      · exact Or.inr ⟨rfl, Or.inr ⟨e1, Or.inr ⟨e2, le_of_lt h3⟩⟩⟩
      · exact Or.inr ⟨rfl, Or.inr ⟨e1, Or.inr ⟨e2, le_of_eq e3⟩⟩⟩

/-- `idxOf` of the head. -/
theorem idxOf_cons_self {α : Type} [DecidableEq α] (a : α) (l : List α) :
    idxOf a (a :: l) = 0 := by simp [idxOf]

/-- `idxOf` skips a different head. -/
theorem idxOf_cons_ne {α : Type} [DecidableEq α] {a x : α} (l : List α)
    (h : a ≠ x) : idxOf x (a :: l) = idxOf x l + 1 := by simp [idxOf, h]

/-- Members with the same position are equal. -/
theorem idxOf_inj_of_mem {α : Type} [DecidableEq α] :
    ∀ (l : List α) (x y : α), x ∈ l → y ∈ l → idxOf x l = idxOf y l → x = y := by
  intro l
  induction l with
  | nil => intro x y hx _ _; simp at hx
  | cons a t ih =>
    intro x y hx hy hidx
    by_cases hax : a = x
    · by_cases hay : a = y
      · rw [← hax, ← hay]
      · rw [← hax] at hidx
        rw [idxOf_cons_self, idxOf_cons_ne t hay] at hidx
        exact absurd hidx.symm (Nat.succ_ne_zero _)
    · by_cases hay : a = y
      · rw [← hay] at hidx
        rw [idxOf_cons_self, idxOf_cons_ne t hax] at hidx
        exact absurd hidx (Nat.succ_ne_zero _)
      · rw [idxOf_cons_ne t hax, idxOf_cons_ne t hay] at hidx
        have hx' : x ∈ t := by
          rcases List.mem_cons.mp hx with rfl | h
          · exact absurd rfl hax
          · exact h
        have hy' : y ∈ t := by
          rcases List.mem_cons.mp hy with rfl | h
          · exact absurd rfl hay
          · exact h
        exact ih x y hx' hy' (Nat.succ_injective hidx)

/-- In a duplicate-free list, positions order the elements. -/
theorem nodup_pairwise_idxOf {α : Type} [DecidableEq α] :
    ∀ (l : List α), l.Nodup → l.Pairwise (fun a b => idxOf a l < idxOf b l) := by
  intro l
  induction l with
  | nil => intro _; simp
  | cons a t ih =>
    intro hnd
    refine List.pairwise_cons.mpr ⟨?_, ?_⟩
    · intro b hb
      have hba : a ≠ b := fun hc => (List.nodup_cons.mp hnd).1 (hc ▸ hb)
      rw [idxOf_cons_self, idxOf_cons_ne t hba]
      exact Nat.succ_pos _
    · refine (ih (List.nodup_cons.mp hnd).2).imp_of_mem ?_
      intro x y hx hy hlt
      have hxa : a ≠ x := fun hc => (List.nodup_cons.mp hnd).1 (hc ▸ hx)
      have hya : a ≠ y := fun hc => (List.nodup_cons.mp hnd).1 (hc ▸ hy)
      rw [idxOf_cons_ne t hxa, idxOf_cons_ne t hya]
      exact Nat.succ_lt_succ hlt

/-- With distinct keys, the position of an entry is the position of its key. -/
theorem idxOf_fst_eq {α : Type} [DecidableEq α] :
    ∀ (E : List (Str × α)), (E.map Prod.fst).Nodup → ∀ e ∈ E,
      idxOf e E = idxOf e.1 (E.map Prod.fst) := by
  intro E
  induction E with
  | nil => intro _ e he; simp at he
  | cons hd t ih =>
    intro hnd e he
    rw [List.map_cons] at hnd
    have hnd2 := List.nodup_cons.mp hnd
    rcases List.mem_cons.mp he with rfl | he'
    · rw [idxOf_cons_self, List.map_cons, idxOf_cons_self]
    · have hfst : hd.1 ≠ e.1 := by
        intro hc
        have hmem : hd.1 ∈ t.map Prod.fst := by
          rw [hc]; exact List.mem_map_of_mem _ he'
        exact hnd2.1 hmem
      have hne : hd ≠ e := fun hc => hfst (hc ▸ rfl)
      rw [idxOf_cons_ne t hne, List.map_cons,
        idxOf_cons_ne (t.map Prod.fst) hfst]
      rw [ih hnd2.2 e he']

/-- `Object.entries` enumeration is a permutation of the insertion order. -/
theorem jsEntriesOrder_perm {α : Type} [DecidableEq α]
    (E : List (Str × α)) : (jsEntriesOrder E).Perm E := by
  unfold jsEntriesOrder
  refine List.Perm.trans ?_ (List.filter_append_perm (fun e => isArrayIndexStr e.1) E)
  exact (sortByKey_perm _ _).append_right _

/-- Padding a 2-component comparison into the tail of a 4-component one. -/
theorem lex4_pad (a b a' b' : ℚ) (h : lex4LE (a, b, 0, 0) (a', b', 0, 0)) :
    lex4LE (0, a, b, 0) (0, a', b', 0) := by
  rcases h with h1 | ⟨e1, h2⟩
  · exact Or.inr ⟨rfl, Or.inl h1⟩
  · rcases h2 with h2 | ⟨e2, _⟩
    · exact Or.inr ⟨rfl, Or.inr ⟨e1, Or.inl h2⟩⟩
    · exact Or.inr ⟨rfl, Or.inr ⟨e1, Or.inr ⟨e2, le_refl 0⟩⟩⟩

/-- `Object.entries` enumeration is sorted by the amended tie-break key. -/
theorem jsEntriesOrder_sorted {α : Type} [DecidableEq α]
    (E : List (Str × α)) (hnd : (E.map Prod.fst).Nodup) :
    (jsEntriesOrder E).Pairwise
      (fun e e' => lex4LE (tailKey (E.map Prod.fst) e.1)
        (tailKey (E.map Prod.fst) e'.1)) := by
  have hndE : E.Nodup := List.Nodup.of_map Prod.fst hnd
  unfold jsEntriesOrder
  rw [List.pairwise_append]
  refine ⟨?_, ?_, ?_⟩
  · have hs := sortByKey_sorted
      (fun e : Str × α => ((strVal e.1 : ℚ), (idxOf e E : ℚ), 0, 0))
      (E.filter (fun e => isArrayIndexStr e.1))
    refine hs.imp_of_mem ?_
    intro x y hx hy hxy
    have hxF := (sortByKey_perm _ _).mem_iff.mp hx
    have hyF := (sortByKey_perm _ _).mem_iff.mp hy
    obtain ⟨hxE, hxnum⟩ := List.mem_filter.mp hxF
    obtain ⟨hyE, hynum⟩ := List.mem_filter.mp hyF
    unfold tailKey
    rw [if_pos (by simpa using hxnum), if_pos (by simpa using hxnum),
      if_pos (by simpa using hynum), if_pos (by simpa using hynum)]
    rw [← idxOf_fst_eq E hnd x hxE, ← idxOf_fst_eq E hnd y hyE]
    exact lex4_pad _ _ _ _ hxy
  · have hpw : (E.filter (fun e => !isArrayIndexStr e.1)).Pairwise
        (fun a b => idxOf a E < idxOf b E) :=
      List.Pairwise.sublist (List.filter_sublist E) (nodup_pairwise_idxOf E hndE)
    refine hpw.imp_of_mem ?_
    intro x y hx hy hlt
    obtain ⟨hxE, hxnum⟩ := List.mem_filter.mp hx
    obtain ⟨hyE, hynum⟩ := List.mem_filter.mp hy
    have hxn : isArrayIndexStr x.1 = false := by simpa using hxnum
    have hyn : isArrayIndexStr y.1 = false := by simpa using hynum
    unfold tailKey
    rw [if_neg (by simp [hxn]), if_neg (by simp [hxn]),
      if_neg (by simp [hyn]), if_neg (by simp [hyn])]
    rw [← idxOf_fst_eq E hnd x hxE, ← idxOf_fst_eq E hnd y hyE]
    refine Or.inr ⟨rfl, Or.inr ⟨rfl, Or.inl ?_⟩⟩
    show ((idxOf x E : ℚ)) < ((idxOf y E : ℚ))
    exact_mod_cast hlt
  · intro x hx y hy
    have hxF := (sortByKey_perm _ _).mem_iff.mp hx
    obtain ⟨_, hxnum⟩ := List.mem_filter.mp hxF
    obtain ⟨_, hynum⟩ := List.mem_filter.mp hy
    have hyn : isArrayIndexStr y.1 = false := by simpa using hynum
    unfold tailKey
    rw [if_pos (by simpa using hxnum), if_pos (by simpa using hxnum),
      if_neg (by simp [hyn]), if_neg (by simp [hyn])]
    refine Or.inl ?_
    show (0 : ℚ) < 1
    norm_num

/-- Embedding of numeric count entries into stored JS values. -/
def numEntries (m : List (Str × ℕ)) : List (Str × JsVal) :=
  m.map (fun e => (e.1, JsVal.num e.2))

/-- The own-key test is invariant under the numeric embedding. -/
theorem any_key_numEntries (m : List (Str × ℕ)) (w : Str) :
    (numEntries m).any (fun e => e.1 = w) = m.any (fun e => e.1 = w) := by
  induction m with
  | nil => rfl
  | cons a t ih =>
    show (decide (a.1 = w) || (numEntries t).any (fun e => e.1 = w))
      = (decide (a.1 = w) || t.any (fun e => e.1 = w))
    rw [ih]

/-- `filter` after `map`, when the predicates correspond along the map. -/
theorem filter_map_comm {α β : Type} (f : α → β) (p : α → Bool) (q : β → Bool)
    (h : ∀ a, q (f a) = p a) :
    ∀ l : List α, (l.map f).filter q = (l.filter p).map f := by
  intro l
  induction l with
  | nil => rfl
  | cons a t ih =>
    rw [List.map_cons, List.filter_cons, List.filter_cons, h a]
    by_cases hpa : p a = true
    · rw [if_pos hpa, if_pos hpa, List.map_cons, ih]
    · rw [if_neg hpa, if_neg hpa, ih]

/-- `idxOf` is transported along an injective map. -/
theorem idxOf_map_inj {α β : Type} [DecidableEq α] [DecidableEq β] (f : α → β)
    (hinj : ∀ a b, f a = f b → a = b) (x : α) :
    ∀ l : List α, idxOf (f x) (l.map f) = idxOf x l := by
  intro l
  induction l with
  | nil => rfl
  | cons a t ih =>
    rw [List.map_cons]
    by_cases h : a = x
    · subst h
      rw [idxOf_cons_self, idxOf_cons_self]
    · have hf : f a ≠ f x := fun hc => h (hinj _ _ hc)
      rw [idxOf_cons_ne _ hf, idxOf_cons_ne _ h, ih]

/-- `sortByKey` commutes with a map along which the keys correspond. -/
theorem sortByKey_map {α β : Type} (k : β → Key4) (k2 : α → Key4) (f : α → β)
    (hk : ∀ a, k (f a) = k2 a) (l : List α) :
    (sortByKey k2 l).map f = sortByKey k (l.map f) := by
  unfold sortByKey
  refine List.map_insertionSort (keyedLE k2) (keyedLE k) f l ?_
  intro a _ b _
  unfold keyedLE
  rw [hk a, hk b]

/-- The `__proto__` write never creates an own property. -/
theorem bumpFreq_proto (acc : List (Str × JsVal)) :
    bumpFreq acc protoStr = acc := by
  unfold bumpFreq
  rw [if_pos rfl]

/-- On numeric entries, a token colliding with no inherited key steps the
faithful object exactly as the numeric model does. -/
theorem bumpFreq_numEntries (m : List (Str × ℕ)) (w : Str)
    (hp : ¬ w = protoStr) (hc : ¬ w = ctorStr) :
    bumpFreq (numEntries m) w = numEntries (bumpFreqN m w) := by
  unfold bumpFreq bumpFreqN
  rw [if_neg hp, any_key_numEntries m w]
  by_cases h : m.any (fun e => e.1 = w) = true
  · rw [if_pos h, if_pos h]
    unfold numEntries
    rw [List.map_map, List.map_map]
    refine List.map_congr_left ?_
    intro e _
    by_cases he : e.1 = w
    · simp [he, jsBump]
    · simp [he]
  · rw [if_neg h, if_neg h, if_neg hc]
    unfold numEntries
    rw [List.map_append]
    rfl

/-- Folding constructor-free tokens: the faithful object is the numeric model
over the tokens that become own properties. -/
theorem freqGo_bridge :
    ∀ (ws : List Str) (m : List (Str × ℕ)), ctorStr ∉ ws →
      List.foldl bumpFreq (numEntries m) ws
        = numEntries (List.foldl bumpFreqN m
            (ws.filter (fun w => !(w = protoStr)))) := by
  intro ws
  induction ws with
  | nil => intro m _; rfl
  | cons w t ih =>
    intro m hc
    have hcw : ¬ w = ctorStr := fun h => hc (by rw [h]; exact List.mem_cons_self _ _)
    have hct : ctorStr ∉ t := fun h => hc (List.mem_cons_of_mem w h)
    rw [List.foldl_cons, List.filter_cons]
    by_cases hp : w = protoStr
    · subst hp
      rw [bumpFreq_proto, if_neg (by simp)]
      exact ih m hct
    · rw [bumpFreq_numEntries m w hp hcw, if_pos (by simp [hp]), List.foldl_cons]
      exact ih (bumpFreqN m w) hct

/-- `freqFold` on constructor-free tokens. -/
theorem freqFold_bridge (toks : List Str) (hc : ctorStr ∉ toks) :
    freqFold toks
      = numEntries (freqFoldN (toks.filter (fun w => !(w = protoStr)))) := by
  have h := freqGo_bridge toks [] hc
  unfold freqFold freqFoldN
  exact h

/-- `Object.entries` order commutes with an injective key-preserving map of
the stored values. -/
theorem jsEntriesOrder_map {α β : Type} [DecidableEq α] [DecidableEq β]
    (f : Str × α → Str × β) (hfst : ∀ e, (f e).1 = e.1)
    (hinj : ∀ a b, f a = f b → a = b) (E : List (Str × α)) :
    jsEntriesOrder (E.map f) = (jsEntriesOrder E).map f := by
  unfold jsEntriesOrder
  rw [filter_map_comm f (fun e => isArrayIndexStr e.1)
      (fun e => isArrayIndexStr e.1)
      (fun a => by
        show isArrayIndexStr (f a).1 = isArrayIndexStr a.1
        rw [hfst a]) E,
    filter_map_comm f (fun e => !isArrayIndexStr e.1)
      (fun e => !isArrayIndexStr e.1)
      (fun a => by
        show (!isArrayIndexStr (f a).1) = (!isArrayIndexStr a.1)
        rw [hfst a]) E,
    List.map_append]
  congr 1
  exact (sortByKey_map
    (fun e : Str × β => ((strVal e.1 : ℚ), (idxOf e (E.map f) : ℚ), 0, 0))
    (fun e : Str × α => ((strVal e.1 : ℚ), (idxOf e E : ℚ), 0, 0)) f
    (fun a => by
      show ((strVal (f a).1 : ℚ), (idxOf (f a) (E.map f) : ℚ), (0 : ℚ), (0 : ℚ))
        = ((strVal a.1 : ℚ), (idxOf a E : ℚ), (0 : ℚ), (0 : ℚ))
      rw [hfst a, idxOf_map_inj f hinj a E])
    (E.filter (fun e => isArrayIndexStr e.1))).symm

/-- `stableSortByScore` commutes with a map along which the scores
correspond. -/
theorem stableSortByScore_map {α β : Type} (sc : β → ℚ) (sc2 : α → ℚ)
    (f : α → β) (h : ∀ a, sc (f a) = sc2 a) (l : List α) :
    stableSortByScore sc (l.map f) = (stableSortByScore sc2 l).map f := by
  unfold stableSortByScore
  have hpk : ∀ p : ℕ × α, stableKey sc (Prod.map id f p) = stableKey sc2 p := by
    intro p
    show (-(sc (f p.2)), (p.1 : ℚ), (0 : ℚ), (0 : ℚ))
      = (-(sc2 p.2), (p.1 : ℚ), (0 : ℚ), (0 : ℚ))
    rw [h p.2]
  rw [List.enum_map, ← sortByKey_map (stableKey sc) (stableKey sc2)
      (Prod.map id f) hpk l.enum, List.map_map, List.map_map]
  rfl

/-- Away from the `constructor` collision, `extractKeywords` is the numeric
pipeline over the own-property tokens. -/
theorem extractKeywords_bridge (text : Str)
    (hc : ctorStr ∉ keywordTokens text) :
    extractKeywords text = extractKeywordsN (ownTokens text) := by
  have hinj : ∀ a b : Str × ℕ,
      ((a.1, JsVal.num a.2) : Str × JsVal) = (b.1, JsVal.num b.2) → a = b := by
    intro a b hab
    cases a
    cases b
    simp only [Prod.mk.injEq, JsVal.num.injEq] at hab
    rw [hab.1, hab.2]
  have h1 : extractKeywords text
      = ((stableSortByScore (fun e : Str × JsVal => jsValQ e.2)
          (jsEntriesOrder (freqFold (keywordTokens text)))).take 20).map
            Prod.fst := rfl
  have h2 : extractKeywordsN (ownTokens text)
      = ((stableSortByScore (fun e : Str × ℕ => (e.2 : ℚ))
          (jsEntriesOrder (freqFoldN (ownTokens text)))).take 20).map
            Prod.fst := rfl
  have h3 : (keywordTokens text).filter (fun w => !(w = protoStr))
      = ownTokens text := rfl
  have h4 : numEntries (freqFoldN (ownTokens text))
      = (freqFoldN (ownTokens text)).map
          (fun e : Str × ℕ => (e.1, JsVal.num e.2)) := rfl
  rw [h1, h2, freqFold_bridge (keywordTokens text) hc, h3, h4,
    jsEntriesOrder_map (fun e : Str × ℕ => (e.1, JsVal.num e.2)) (fun e => rfl)
      hinj (freqFoldN (ownTokens text)),
    stableSortByScore_map (fun e : Str × JsVal => jsValQ e.2)
      (fun e : Str × ℕ => (e.2 : ℚ)) (fun e : Str × ℕ => (e.1, JsVal.num e.2))
      (fun a => rfl) (jsEntriesOrder (freqFoldN (ownTokens text))),
    ← List.map_take, List.map_map]
  rfl

/-- The numeric pipeline sorts the distinct tokens by the amended key:
count descending, then canonical array-index tokens ascending by numeric
value, then first appearance. -/
theorem extractKeywordsN_eq (toks : List Str) :
    extractKeywordsN toks
      = (sortByKey (tokKey toks (firstDedup toks)) (firstDedup toks)).take 20 := by
  have hkeys : (freqFoldN toks).map Prod.fst
      = firstDedup toks := freqFoldN_keys _
  have hnd : ((freqFoldN toks).map Prod.fst).Nodup :=
    freqFoldN_keys_nodup _
  have hcnt := freqFoldN_counts toks
  have hLperm := jsEntriesOrder_perm (freqFoldN toks)
  have hLsort := jsEntriesOrder_sorted (freqFoldN toks) hnd
  rw [hkeys] at hLsort
  obtain ⟨perm, hperm, hdesc, hstab, heq⟩ :=
    stableSortByScore_spec (fun e : Str × ℕ => (e.2 : ℚ))
      (jsEntriesOrder (freqFoldN toks))
  have hLHSsorted :
      ((stableSortByScore (fun e : Str × ℕ => (e.2 : ℚ))
          (jsEntriesOrder (freqFoldN toks))).map Prod.fst).Pairwise
        (keyedLE (tokKey toks (firstDedup toks))) := by
    rw [heq, List.map_map]
    refine List.pairwise_map.mpr ?_
    refine ((hdesc.and hstab).imp_of_mem) ?_
    intro x y hx hy hxy
    obtain ⟨hle, htie⟩ := hxy
    have hxE : x ∈ (jsEntriesOrder (freqFoldN toks)).enum :=
      hperm.mem_iff.mp hx
    have hyE : y ∈ (jsEntriesOrder (freqFoldN toks)).enum :=
      hperm.mem_iff.mp hy
    have hxget := List.mem_enum_iff_getElem?.mp hxE
    have hyget := List.mem_enum_iff_getElem?.mp hyE
    have hxL : x.2 ∈ jsEntriesOrder (freqFoldN toks) := by
      obtain ⟨hlt, hq⟩ := List.getElem?_eq_some.mp hxget
      exact hq ▸ List.getElem_mem hlt
    have hyL : y.2 ∈ jsEntriesOrder (freqFoldN toks) := by
      obtain ⟨hlt, hq⟩ := List.getElem?_eq_some.mp hyget
      exact hq ▸ List.getElem_mem hlt
    have hxcnt : (x.2).2 = toks.count (x.2).1 :=
      hcnt _ (hLperm.mem_iff.mp hxL)
    have hycnt : (y.2).2 = toks.count (y.2).1 :=
      hcnt _ (hLperm.mem_iff.mp hyL)
    show lex4LE (tokKey toks (firstDedup toks) (x.2).1)
      (tokKey toks (firstDedup toks) (y.2).1)
    by_cases hcq : ((x.2).2 : ℚ) = ((y.2).2 : ℚ)
    · have hpos : x.1 < y.1 := htie hcq
      obtain ⟨hxlt, hxeq⟩ := List.getElem?_eq_some.mp hxget
      obtain ⟨hylt, hyeq⟩ := List.getElem?_eq_some.mp hyget
      have hrel := List.pairwise_iff_get.mp hLsort ⟨x.1, hxlt⟩ ⟨y.1, hylt⟩ hpos
      rw [List.get_eq_getElem, List.get_eq_getElem, hxeq, hyeq] at hrel
      have hcounts : toks.count (x.2).1
          = toks.count (y.2).1 := by
        rw [← hxcnt, ← hycnt]
        exact_mod_cast hcq
      unfold tokKey
      rw [hcounts]
      exact lex4_shift _ _ _ _ _ _ _ hrel
    · have hlt : ((y.2).2 : ℚ) < ((x.2).2 : ℚ) :=
        lt_of_le_of_ne hle (fun hc => hcq hc.symm)
      refine Or.inl ?_
      show -((toks.count (x.2).1 : ℚ))
        < -((toks.count (y.2).1 : ℚ))
      rw [← hxcnt, ← hycnt]
      exact neg_lt_neg hlt
  have hpermTok :
      ((stableSortByScore (fun e : Str × ℕ => (e.2 : ℚ))
          (jsEntriesOrder (freqFoldN toks))).map Prod.fst).Perm
        (firstDedup toks) := by
    have h1 := (stableSortByScore_perm (fun e : Str × ℕ => (e.2 : ℚ))
      (jsEntriesOrder (freqFoldN toks))).map Prod.fst
    have h2 := hLperm.map Prod.fst
    rw [hkeys] at h2
    exact h1.trans h2
  have hRHS := sortByKey_sorted
    (tokKey toks (firstDedup toks))
    (firstDedup toks)
  have hmain : (stableSortByScore (fun e : Str × ℕ => (e.2 : ℚ))
      (jsEntriesOrder (freqFoldN toks))).map Prod.fst
      = sortByKey (tokKey toks (firstDedup toks))
          (firstDedup toks) := by
    refine perm_sorted_eq_on (hpermTok.trans (sortByKey_perm _ _).symm)
      hLHSsorted hRHS ?_
    intro a ha b hb hab hba
    have hk := lex4LE_antisymm _ _ hab hba
    have h4 : ((idxOf a (firstDedup toks) : ℚ))
        = ((idxOf b (firstDedup toks) : ℚ)) :=
      congrArg (fun p : Key4 => p.2.2.2) hk
    have h4' : idxOf a (firstDedup toks)
        = idxOf b (firstDedup toks) := by exact_mod_cast h4
    exact idxOf_inj_of_mem _ a b (hpermTok.mem_iff.mp ha) (hpermTok.mem_iff.mp hb) h4'
  have hL : extractKeywordsN toks
      = ((stableSortByScore (fun e : Str × ℕ => (e.2 : ℚ))
          (jsEntriesOrder (freqFoldN toks))).take 20).map Prod.fst := rfl
  rw [hL, List.map_take, hmain]

/-- C6 (amended): for every text whose filtered tokens avoid `constructor`
(that token reads a truthy inherited function, stores a string count, and
makes the sort comparator inconsistent, a case whose order ECMAScript leaves
implementation-defined), `extractKeywords` returns the distinct own-property
tokens — `__proto__` is dropped, its write being swallowed by the inherited
setter — sorted by descending frequency, with ties broken by listing
canonical array-index tokens first in ascending numeric order (the
`Object.entries` enumeration order) and the remaining tokens by first
appearance, truncated to 20. -/
theorem extractKeywords_c6_amended (text : Str)
    (hc : ctorStr ∉ keywordTokens text) :
    extractKeywords text = extractKeywordsAmended text := by
  rw [extractKeywords_bridge text hc, extractKeywordsN_eq (ownTokens text)]
  rfl

/-- Witness for the amended C6 statement at a concrete constructor-free
text. -/
theorem extractKeywords_c6_amended_witness :
    ctorStr ∉ keywordTokens "hello world hello".data ∧
      extractKeywords "hello world hello".data
        = extractKeywordsAmended "hello world hello".data :=
  ⟨by decide, extractKeywords_c6_amended ("hello world hello".data) (by decide)⟩

unseal Rat.mul Rat.add Rat.inv Rat.sub Rat.ofScientific in
/-- C6 counterexample: on the text "zebra 777" both tokens occur once, so the
claimed tie-break by first appearance would return ["zebra", "777"], but the
implementation enumerates the integer-like key "777" first (JS object
array-index key ordering), returning ["777", "zebra"]. -/
theorem extractKeywords_c6_counterexample :
    extractKeywords "zebra 777".data ≠ extractKeywordsSpec "zebra 777".data := by
  decide
